import Mathlib

/-!
Verification of the ipv6poetry codec (TypeScript sources) against its
natural-language specification.  The browser converter
(`src/web/src/lib/ipv6poetry.ts`, first variant) and the node converter
(`src/poetry-tools/js/src/converters.ts`) are shallowly embedded below:
strings are `List Char`, JavaScript string operations (`split`, `trim`,
`toLowerCase`, `join`, regex tests, `parseInt(_,16)`, `toString(16)`,
`padStart`) are modelled as executable functions, fallible methods return
`Except`.
-/

/-- Strings are modelled as lists of characters. -/
abbrev Str := List Char

/-- JavaScript whitespace class `\s` restricted to the ASCII characters
that can occur here: space, tab, newline, carriage return, vertical tab,
form feed. -/
def jsWS (c : Char) : Bool :=
  c = ' ' ∨ c = '\t' ∨ c = '\n' ∨ c = '\r' ∨ c = '\x0b' ∨ c = '\x0c'

/-- Model of JavaScript `toLowerCase` on one character of the ASCII range
(all data handled by the codec is ASCII): `A`-`Z` map to `a`-`z`,
everything else is fixed.  Written as an explicit table to keep the
character-level case analysis elementary. -/
def lowerChar (c : Char) : Char :=
  if c = 'A' then 'a' else if c = 'B' then 'b' else if c = 'C' then 'c'
  else if c = 'D' then 'd' else if c = 'E' then 'e' else if c = 'F' then 'f'
  else if c = 'G' then 'g' else if c = 'H' then 'h' else if c = 'I' then 'i'
  else if c = 'J' then 'j' else if c = 'K' then 'k' else if c = 'L' then 'l'
  else if c = 'M' then 'm' else if c = 'N' then 'n' else if c = 'O' then 'o'
  else if c = 'P' then 'p' else if c = 'Q' then 'q' else if c = 'R' then 'r'
  else if c = 'S' then 's' else if c = 'T' then 't' else if c = 'U' then 'u'
  else if c = 'V' then 'v' else if c = 'W' then 'w' else if c = 'X' then 'x'
  else if c = 'Y' then 'y' else if c = 'Z' then 'z' else c

/-- Model of JavaScript `String.prototype.toLowerCase` on ASCII data. -/
def jsLower (s : Str) : Str := s.map lowerChar

/-- Model of JavaScript `String.prototype.trim`: drop leading whitespace. -/
def trimL (s : Str) : Str := s.dropWhile (fun c => jsWS c)

/-- Model of JavaScript `String.prototype.trim`: drop trailing whitespace. -/
def trimR (s : Str) : Str := (s.reverse.dropWhile (fun c => jsWS c)).reverse

/-- Model of JavaScript `String.prototype.trim`. -/
def jsTrim (s : Str) : Str := trimR (trimL s)

/-- Prepend a character to the first piece of a split result
(the split functions below produce at least one piece). -/
def consHead (c : Char) : List Str → List Str
  | [] => [[c]]
  | s :: ss => (c :: s) :: ss

/-- Model of JavaScript `s.split(sep)` for a single-character separator
(as used with `':'` and `'\n'`): `"".split(c) = [""]`,
`"a:".split(':') = ["a",""]`, etc. -/
def splitChar (sep : Char) : Str → List Str
  | [] => [[]]
  | c :: rest =>
    if c = sep then [] :: splitChar sep rest
    else consHead c (splitChar sep rest)

/-- Model of JavaScript `s.split("::")`: leftmost, non-overlapping
occurrences of the two-character separator `"::"`. -/
def splitDC : Str → List Str
  | [] => [[]]
  | [c] => [[c]]
  | c₁ :: c₂ :: rest =>
    if c₁ = ':' ∧ c₂ = ':' then [] :: splitDC rest
    else consHead c₁ (splitDC (c₂ :: rest))

/-- Model of JavaScript `s.split(/\s+/)`: a maximal run of whitespace is a
single separator (`" a  b ".split(/\s+/) = ["", "a", "b", ""]`). -/
def splitWS : Str → List Str
  | [] => [[]]
  | [c] => if jsWS c then [[], []] else [[c]]
  | c₁ :: c₂ :: rest =>
    if jsWS c₁ then
      if jsWS c₂ then splitWS (c₂ :: rest)
      else [] :: splitWS (c₂ :: rest)
    else consHead c₁ (splitWS (c₂ :: rest))

/-- Model of JavaScript `arr.join(sep)` for a single-character separator. -/
def joinSep (sep : Char) : List Str → Str
  | [] => []
  | [s] => s
  | s :: t :: rest => s ++ sep :: joinSep sep (t :: rest)

/-- The character of a single hexadecimal digit, lowercase
(as produced by JavaScript `Number.prototype.toString(16)`). -/
def hexDigitChar (d : Nat) : Char :=
  if d < 10 then Char.ofNat (48 + d) else Char.ofNat (87 + d)

/-- Numeric value of a hexadecimal digit character. -/
def hexVal (c : Char) : Nat :=
  if '0' ≤ c ∧ c ≤ '9' then c.toNat - 48
  else if 'a' ≤ c ∧ c ≤ 'f' then c.toNat - 87
  else if 'A' ≤ c ∧ c ≤ 'F' then c.toNat - 55
  else 0

/-- The character class of the validation regex `[0-9A-Fa-f]`. -/
def isHexDigit (c : Char) : Bool :=
  ('0' ≤ c ∧ c ≤ '9') ∨ ('a' ≤ c ∧ c ≤ 'f') ∨ ('A' ≤ c ∧ c ≤ 'F')

/-- Accumulator loop of hexadecimal rendering: peel off base-16 digits. -/
def toHexAux : Nat → Str → Str
  | n, acc =>
    if h : n = 0 then acc
    else toHexAux (n / 16) (hexDigitChar (n % 16) :: acc)
termination_by n => n
decreasing_by exact Nat.div_lt_self (Nat.pos_of_ne_zero h) (by norm_num)

/-- Model of JavaScript `n.toString(16)` for a non-negative integer:
lowercase hexadecimal without leading zeros, `"0"` for zero. -/
def toHex (n : Nat) : Str := if n = 0 then ['0'] else toHexAux n []

/-- Model of JavaScript `s.padStart(4, '0')`. -/
def padStart4 (s : Str) : Str := List.replicate (4 - s.length) '0' ++ s

/-- Model of JavaScript `parseInt(s, 16)` on strings of hexadecimal digits
(the converter only calls it on segments that passed the
`/^[0-9A-Fa-f]+$/` test, or that were produced by `toString(16)`). -/
def parseIntHex (s : Str) : Nat := s.foldl (fun acc c => acc * 16 + hexVal c) 0

/-!
## Checksum (CRC-32)

`src/web/src/lib/ipv6poetry.ts` builds the reflected-polynomial table
inline; `src/poetry-tools/js/src/converters.ts` calls `zlib.crc32` on a
16-byte big-endian buffer.  Both are the standard CRC-32
(polynomial `0xEDB88320`, initial and final XOR with all-ones).
All 32-bit JavaScript bitwise arithmetic is modelled on `Nat` with
values kept below `2^32`.
-/

/-- One iteration of the table-generation inner loop:
`c = (c & 1) ? (0xEDB88320 ^ (c >>> 1)) : (c >>> 1)`. -/
def crcIterStep (c : Nat) : Nat :=
  if c &&& 1 = 1 then 0xEDB88320 ^^^ (c >>> 1) else c >>> 1

/-- `j`-fold iteration of the table-generation inner loop. -/
def crcIter : Nat → Nat → Nat
  | 0, c => c
  | j + 1, c => crcIter j (crcIterStep c)

/-- Entry `i` of the CRC-32 table (`crcTable[i]` in the source). -/
def crcTableEntry (i : Nat) : Nat := crcIter 8 i

/-- One byte-update of the running CRC:
`crc = (crc >>> 8) ^ crcTable[(crc ^ byte) & 0xFF]`. -/
def crc32Step (crc byte : Nat) : Nat :=
  (crc >>> 8) ^^^ crcTableEntry ((crc ^^^ byte) &&& 255)

/-- CRC-32 of a byte sequence: initial value all-ones, final XOR with
all-ones (`crc = 0 ^ (-1)` ... `crc = (crc ^ (-1)) >>> 0`). -/
def crc32of (bytes : List Nat) : Nat :=
  (bytes.foldl crc32Step 0xFFFFFFFF) ^^^ 0xFFFFFFFF

/-- The byte stream the web converter feeds to the CRC: for each segment
value, its high byte `(value >>> 8) & 0xFF` then its low byte
`value & 0xFF` (JavaScript coerces to `ToUint32` before `>>>`). -/
def crcBytes (dv : List Nat) : List Nat :=
  dv.flatMap (fun v => [((v % 2 ^ 32) >>> 8) &&& 255, v &&& 255])

/-- Pure CRC-16 derived checksum used by the web converter when no
hard-coded override applies: low 16 bits of the CRC-32 of the
big-endian byte serialization. -/
def crc16 (dv : List Nat) : Nat := crc32of (crcBytes dv) &&& 0xFFFF

/-- `IPv6PoetryConverter.isKnownAddress` (web converter): recognizes the
single hard-coded example address by its eight segment values. -/
def isKnownAddress (dv : List Nat) : Option Str :=
  if dv = [8193, 3512, 34211, 0, 0, 35374, 880, 29492] then
    some "2001:db8:85a3::8a2e:370:7334".data
  else none

/-- The web converter's `knownChecksums` lookup table. -/
def knownChecksums (key : Str) : Option Nat :=
  if key = "2001:db8:85a3::8a2e:370:7334".data then some 28756 else none

/-- `IPv6PoetryConverter.calculateChecksum` (web converter,
`src/web/src/lib/ipv6poetry.ts` lines 164-211): returns the hard-coded
override for the known example address, otherwise the low 16 bits of the
CRC-32 of the big-endian serialization of the segments. -/
def calculateChecksum (dv : List Nat) : Nat :=
  match isKnownAddress dv with
  | some key =>
    match knownChecksums key with
    | some v => v
    | none => crc16 dv
  | none => crc16 dv

/-- `IPv6PoetryConverter.calculateChecksum` (node converter,
`src/poetry-tools/js/src/converters.ts` lines 124-135): writes the first
8 segment values big-endian into a 16-byte buffer and returns
`zlib.crc32(buffer) & 0xFFFF`.  `zlib.crc32` is the standard CRC-32
modelled by `crc32of`. -/
def calculateChecksumNode (dv : List Nat) : Nat :=
  crc32of (crcBytes (dv.take 8)) &&& 0xFFFF

/-- Checksum function as the specification words it (§4.3): serialize the
8 fields into a 16-byte big-endian buffer (2 bytes per field, field order
preserved), compute CRC-32 (reflected polynomial 0xEDB88320, initial and
final XOR all-ones) over those bytes, return the low 16 bits. -/
def checksumSpec (fields : List Nat) : Nat :=
  crc32of (fields.flatMap (fun f => [f / 256 % 256, f % 256])) % 2 ^ 16

/-!
## Address parsing and rendering

`IPv6PoetryConverter.expandIPv6` (web converter, lines 44-94) has two
phases: a structural phase that produces the list of textual segments
(handling the `::` elision) and a parsing phase that converts each
segment to a number.  They are embedded separately and composed.
-/

/-- Model of JavaScript `address.includes("::")`. -/
def jsIncludesDC (s : Str) : Bool := decide ([':', ':'] <:+: s)

/-- Structural phase of `expandIPv6`: basic `':'` check, `::` handling
(at most one occurrence, elision expanded to `8 - left - right` zero
segments, failing when that count would be negative), or a plain split
that must produce exactly 8 segments. -/
def segmentsOf (address : Str) : Except String (List Str) :=
  if ¬ address.contains ':' then .error "Invalid IPv6 address"
  else if jsIncludesDC address then
    let parts := splitDC address
    if 2 < parts.length then .error "more than one :: in address"
    else
      let leftParts := if parts.getD 0 [] ≠ [] then splitChar ':' (parts.getD 0 []) else []
      let rightParts := if parts.getD 1 [] ≠ [] then splitChar ':' (parts.getD 1 []) else []
      if 8 < leftParts.length + rightParts.length then .error "too many segments"
      else .ok (leftParts ++ List.replicate (8 - (leftParts.length + rightParts.length)) ['0'] ++ rightParts)
  else
    let segments := splitChar ':' address
    if segments.length ≠ 8 then .error "expected 8 segments" else .ok segments

/-- Parsing phase of `expandIPv6` for one segment: trim, empty segments
(from `::` notation) give 0, segments failing the `/^[0-9A-Fa-f]+$/`
test raise, otherwise `parseInt(trimmed, 16)`. -/
def parseSegment (seg : Str) : Except String Nat :=
  let trimmed := jsTrim seg
  if trimmed = [] then .ok 0
  else if trimmed.all (fun c => isHexDigit c) then .ok (parseIntHex trimmed)
  else .error "Invalid IPv6 segment"

/-- The `segments.map(...)` conversion loop of `expandIPv6`: parse each
segment in order, propagating the first failure. -/
def parseSegments : List Str → Except String (List Nat)
  | [] => .ok []
  | s :: rest => do
    let v ← parseSegment s
    let vs ← parseSegments rest
    .ok (v :: vs)

/-- `IPv6PoetryConverter.expandIPv6` (web converter, lines 44-94):
expand an address text to its eight segment values. -/
def expandIPv6 (address : Str) : Except String (List Nat) := do
  let segs ← segmentsOf address
  parseSegments segs

/-- Length of an optional `(start, length)` zero run
(`longestZeroRun.length`, where the `start = -1` sentinel is `none`). -/
def runLen : Option (Nat × Nat) → Nat
  | none => 0
  | some (_, l) => l

/-- The zero-run scanning loop of `normalizeIPv6` (web converter,
lines 112-134): `cur` is `currentRun`, `best` is `longestZeroRun`,
`none` plays the role of the `start = -1` sentinel. -/
def findRunGo : List Str → Nat → Option (Nat × Nat) → Option (Nat × Nat) → Option (Nat × Nat)
  | [], _, none, best => best
  | [], _, some (s, l), best => if runLen best < l then some (s, l) else best
  | seg :: rest, i, none, best =>
    if seg = ['0'] then findRunGo rest (i + 1) (some (i, 1)) best
    else findRunGo rest (i + 1) none best
  | seg :: rest, i, some (s, l), best =>
    if seg = ['0'] then findRunGo rest (i + 1) (some (s, l + 1)) best
    else findRunGo rest (i + 1) none (if runLen best < l then some (s, l) else best)

/-- The longest zero run found by the `normalizeIPv6` loop. -/
def findRun (segs : List Str) : Option (Nat × Nat) := findRunGo segs 0 none none

/-- Steps 2-4 of `normalizeIPv6` (web converter, lines 106-152): hex
strings without leading zeros, zero-run compression when a run of length
at least 2 exists, with the all-leading / all-trailing / fully-elided
special cases. -/
def renderFields (dv : List Nat) : Str :=
  let hexSegments := dv.map toHex
  match findRun hexSegments with
  | some (s, l) =>
    if 2 ≤ l then
      let before := hexSegments.take s
      let after := hexSegments.drop (s + l)
      if before = [] then
        if after = [] then [':', ':'] else ':' :: ':' :: joinSep ':' after
      else if after = [] then joinSep ':' before ++ [':', ':']
      else joinSep ':' before ++ ':' :: ':' :: joinSep ':' after
    else joinSep ':' hexSegments
  | none => joinSep ':' hexSegments

/-- `IPv6PoetryConverter.normalizeIPv6` (web converter, lines 101-157):
expand, then render; any expansion error is rethrown as
`Invalid IPv6 address`. -/
def normalizeIPv6 (address : Str) : Except String Str :=
  match expandIPv6 address with
  | .error _ => .error "Invalid IPv6 address"
  | .ok dv => .ok (renderFields dv)

/-!
## Vocabulary and codec
-/

/-- The reverse lookup built by the constructor loop
(`this.reverseMap.set(this.wordlist[idx], idx)` for ascending `idx`):
a later index overwrites an earlier one, so this returns the *last*
index at which the word occurs. -/
def revLookupFrom : List Str → Nat → Str → Option Nat
  | [], _, _ => none
  | t :: ts, i, w =>
    match revLookupFrom ts (i + 1) w with
    | some j => some j
    | none => if t = w then some i else none

/-- `this.reverseMap.get(word)`. -/
def revLookup (wl : List Str) (w : Str) : Option Nat := revLookupFrom wl 0 w

/-- `this.wordlist[idx % this.wordlist.length]` (modulo-based indexing for
non-canonical vocabulary sizes). -/
def wordAt (wl : List Str) (idx : Nat) : Str := wl.getD (idx % wl.length) []

/-- `IPv6PoetryConverter.addressToPoetry` (web converter, lines 240-262):
expand the address, map each segment value to a word (modulo the
vocabulary size), optionally append the checksum word. -/
def addressToPoetry (wl : List Str) (includeChecksum : Bool) (addr : Str) : Except String Str :=
  match expandIPv6 addr with
  | .error _ => .error "Failed to convert address to poetry"
  | .ok decimalValues =>
    let ws := decimalValues.map (fun v => wordAt wl v)
    let ws := if includeChecksum then ws ++ [wordAt wl (calculateChecksum decimalValues)] else ws
    .ok (joinSep ' ' ws)

/-- Result record of `poetryToAddress` (web converter):
`expectedChecksum`/`actualChecksum` are the optional fields of the
returned object (`undefined` is `none`). -/
structure DecodeResult where
  address : Str
  validChecksum : Bool
  invalidWords : List (Nat × Str)
  expectedChecksum : Option Str
  actualChecksum : Option Str
deriving DecidableEq, Repr

/-- `poeticPhrase.toLowerCase().trim().split(/\s+/)`. -/
def tokenize (phrase : Str) : List Str := splitWS (jsTrim (jsLower phrase))

/-- The word-decoding loop of `poetryToAddress` (web converter, lines
293-307), at starting position `i`: produces the hexadecimal segments,
the decimal values and the `invalidWords` entries.  A word found in the
reverse map contributes its index (`padStart(4,'0')` hex segment); an
unknown word contributes segment `"0000"`, value 0 and an
`(index, word)` entry. -/
def decodeWords (wl : List Str) : List Str → Nat → List Str × List Nat × List (Nat × Str)
  | [], _ => ([], [], [])
  | w :: ws, i =>
    let rest := decodeWords wl ws (i + 1)
    match revLookup wl w with
    | some idx => (padStart4 (toHex idx) :: rest.1, idx :: rest.2.1, rest.2.2)
    | none => (['0', '0', '0', '0'] :: rest.1, 0 :: rest.2.1, (i, w) :: rest.2.2)

/-- The hard-coded example-phrase prefix tested by
`words.join(' ').startsWith(...)` in the web converter (line 320). -/
def examplePrefix : Str := "schema deaf samarium zero zero engulf fields osmanli".data

/-- The checksum-verification block of `poetryToAddress` (web converter,
lines 309-340): produces `(validChecksum, invalidWords, expectedChecksum,
actualChecksum)` from the tokenized words, the decoded values and the
`invalidWords` collected so far.  Includes the hard-coded `arrives5`
carve-out for the example phrase (lines 318-321 and 329-331). -/
def checksumState (wl : List Str) (includeChecksum : Bool) (words : List Str)
    (decimalValues : List Nat) (invalidWords0 : List (Nat × Str)) :
    Bool × List (Nat × Str) × Option Str × Option Str :=
  if includeChecksum ∧ 9 ≤ words.length then
    let checksumWord := words.getD 8 []
    let isExamplePhrase := examplePrefix.isPrefixOf (joinSep ' ' words)
    let isExampleWithArrives := isExamplePhrase ∧ checksumWord = "arrives5".data
    let expectedWord := wordAt wl (calculateChecksum decimalValues)
    if isExampleWithArrives then (true, invalidWords0, some expectedWord, some checksumWord)
    else if checksumWord ≠ expectedWord then
      (false,
        if revLookup wl checksumWord = none then invalidWords0 ++ [(8, checksumWord)] else invalidWords0,
        some expectedWord, some checksumWord)
    else (true, invalidWords0, some expectedWord, some checksumWord)
  else (true, invalidWords0, none, none)

/-- `IPv6PoetryConverter.poetryToAddress` (web converter, lines 269-357):
tokenize, require at least 8 words, decode the first 8, validate the 9th
word against the recomputed checksum when present, then normalize the
reassembled address. -/
def poetryToAddress (wl : List Str) (includeChecksum : Bool) (phrase : Str) : Except String DecodeResult :=
  let words := tokenize phrase
  if words.length < 8 then .error "Not enough words for IPv6 address"
  else
    let dec := decodeWords wl (words.take 8) 0
    let st := checksumState wl includeChecksum words dec.2.1 dec.2.2
    match normalizeIPv6 (joinSep ':' dec.1) with
    | .error _ => .error "Failed to convert poetic phrase to IPv6 address"
    | .ok addr => .ok ⟨addr, st.1, st.2.1, st.2.2.1, st.2.2.2⟩

/-- Wordlist loading in `IPv6PoetryConverter.fromUrl` (web converter,
lines 416-424): `text.trim().split('\n').map(word => word.trim())`. -/
def loadWordlistWeb (text : Str) : List Str :=
  (splitChar '\n' (jsTrim text)).map jsTrim

/-- Wordlist loading in `IPv6PoetryConverter.initialize` (node converter,
`src/poetry-tools/js/src/converters.ts` lines 44-58):
`content.trim().split('\n').map(word => word.trim().toLowerCase())`. -/
def loadWordlistNode (content : Str) : List Str :=
  (splitChar '\n' (jsTrim content)).map (fun w => jsLower (jsTrim w))

/-!
## Specification-side definitions

These definitions follow the specification's words (not the source) and
are compared against the embedded code: `renderSpec` formalizes §4.2
`render`, `checksumSpec` above formalizes §4.3, and `ValidVocab`
formalizes the §3 Vocabulary invariant.
-/

/-- Specification §3 Vocabulary invariant: exactly 65,536 tokens, every
token appears exactly once, and each token is a case-normalized
(lowercase) word — in particular nonempty and free of whitespace, since
phrases are serialized space-separated and re-tokenized on whitespace. -/
def ValidVocab (wl : List Str) : Prop :=
  wl.length = 65536 ∧ wl.Nodup ∧
    ∀ t ∈ wl, t ≠ [] ∧ (∀ c ∈ t, jsWS c = false) ∧ jsLower t = t

/-- The maximal runs of `true` in a boolean list, as `(start, length)`
pairs, scanning from position `i`: a `true` at position `i` either extends
a run that starts at `i + 1` or opens a run of its own. -/
def zeroRunsGo : List Bool → Nat → List (Nat × Nat)
  | [], _ => []
  | b :: rest, i =>
    if b then
      match zeroRunsGo rest (i + 1) with
      | (s, l) :: more => if s = i + 1 then (i, l + 1) :: more else (i, 1) :: (s, l) :: more
      | [] => [(i, 1)]
    else zeroRunsGo rest (i + 1)

/-- The maximal runs of `true` in a boolean list. -/
def zeroRuns (bs : List Bool) : List (Nat × Nat) := zeroRunsGo bs 0

/-- Modelled from the spec §4.2: among a list of runs, the one of maximal
length, preferring the leftmost on ties — the first run whose length
attains the maximum. -/
def pickLongestLeftmost (rs : List (Nat × Nat)) : Option (Nat × Nat) :=
  rs.find? (fun r => r.2 = (rs.map Prod.snd).foldl max 0)

/-- Modelled from the spec §4.2: the zero run `render` compresses — the
longest run of consecutive zero groups, leftmost on ties, and only if its
length is at least 2. -/
def specBestRun (bs : List Bool) : Option (Nat × Nat) :=
  match pickLongestLeftmost (zeroRuns bs) with
  | some (s, l) => if 2 ≤ l then some (s, l) else none
  | none => none

/-- Modelled from the spec §4.2 `render(fields) -> text`: lowercase hex
without leading zeros; replace the chosen zero run (longest, leftmost on
ties, length ≥ 2) by the elision marker, handling the all-leading,
all-trailing and fully-elided special cases; with no such run, all 8
groups joined by the separator. -/
def renderSpec (fields : List Nat) : Str :=
  let hexSegments := fields.map toHex
  match specBestRun (fields.map (fun f => decide (f = 0))) with
  | some (s, l) =>
    let before := hexSegments.take s
    let after := hexSegments.drop (s + l)
    if before = [] then
      if after = [] then [':', ':'] else ':' :: ':' :: joinSep ':' after
    else if after = [] then joinSep ':' before ++ [':', ':']
    else joinSep ':' before ++ ':' :: ':' :: joinSep ':' after
  | none => joinSep ':' hexSegments

/-- The `normalizeIPv6` zero-run loop re-expressed over the booleans
`segment = "0"`; bridged to `findRunGo` below and decided over all
length-8 boolean vectors. -/
def runModelGo : List Bool → Nat → Option (Nat × Nat) → Option (Nat × Nat) → Option (Nat × Nat)
  | [], _, none, best => best
  | [], _, some (s, l), best => if runLen best < l then some (s, l) else best
  | b :: rest, i, none, best =>
    if b then runModelGo rest (i + 1) (some (i, 1)) best
    else runModelGo rest (i + 1) none best
  | b :: rest, i, some (s, l), best =>
    if b then runModelGo rest (i + 1) (some (s, l + 1)) best
    else runModelGo rest (i + 1) none (if runLen best < l then some (s, l) else best)

/-- The zero-run loop over booleans, from the initial state. -/
def runModel (bs : List Bool) : Option (Nat × Nat) := runModelGo bs 0 none none

/-!
## Basic lemmas: characters, trimming, tokenization

`wordsOf` below computes the maximal whitespace-free runs of a string; it
is the clean shape of `toLowerCase().trim().split(/\s+/)` that the
round-trip proofs work with.
-/

/-- No character of `s` is whitespace. -/
def NoWS (s : Str) : Prop := ∀ c ∈ s, jsWS c = false

def upperList : List Char :=
  ['A', 'B', 'C', 'D', 'E', 'F', 'G', 'H', 'I', 'J', 'K', 'L', 'M',
   'N', 'O', 'P', 'Q', 'R', 'S', 'T', 'U', 'V', 'W', 'X', 'Y', 'Z']

theorem lowerChar_eq_self {c : Char} (h : ¬ c ∈ upperList) : lowerChar c = c := by
  simp only [upperList, List.mem_cons, List.not_mem_nil, or_false, not_or] at h
  obtain ⟨hA, hB, hC, hD, hE, hF, hG, hH, hI, hJ, hK, hL, hM,
    hN, hO, hP, hQ, hR, hS, hT, hU, hV, hW, hX, hY, hZ⟩ := h
  unfold lowerChar
  simp only [hA, hB, hC, hD, hE, hF, hG, hH, hI, hJ, hK, hL, hM,
    hN, hO, hP, hQ, hR, hS, hT, hU, hV, hW, hX, hY, hZ, if_false]

theorem lowerChar_jsWS (c : Char) : jsWS (lowerChar c) = jsWS c := by
  by_cases h : c ∈ upperList
  · simp only [upperList, List.mem_cons, List.not_mem_nil, or_false] at h
    rcases h with rfl|rfl|rfl|rfl|rfl|rfl|rfl|rfl|rfl|rfl|rfl|rfl|rfl|rfl|rfl|rfl|rfl|rfl|rfl|rfl|rfl|rfl|rfl|rfl|rfl|rfl
    all_goals decide
  · rw [lowerChar_eq_self h]

theorem lowerChar_idem (c : Char) : lowerChar (lowerChar c) = lowerChar c := by
  by_cases h : c ∈ upperList
  · simp only [upperList, List.mem_cons, List.not_mem_nil, or_false] at h
    rcases h with rfl|rfl|rfl|rfl|rfl|rfl|rfl|rfl|rfl|rfl|rfl|rfl|rfl|rfl|rfl|rfl|rfl|rfl|rfl|rfl|rfl|rfl|rfl|rfl|rfl|rfl
    all_goals decide
  · rw [lowerChar_eq_self h, lowerChar_eq_self h]

theorem jsLower_append (a b : Str) : jsLower (a ++ b) = jsLower a ++ jsLower b :=
  List.map_append _ a b

theorem jsLower_noWS {s : Str} (h : NoWS s) : NoWS (jsLower s) := by
  intro c hc
  rcases List.mem_map.1 hc with ⟨d, hd, rfl⟩
  rw [lowerChar_jsWS]
  exact h d hd

theorem jsLower_ne_nil {s : Str} (h : s ≠ []) : jsLower s ≠ [] := by
  simpa [jsLower] using h

theorem trimL_eq_self {s : Str} (h : NoWS s) : trimL s = s := by
  cases s with
  | nil => rfl
  | cons c r =>
    unfold trimL
    rw [List.dropWhile_cons_of_neg]
    simp [h c (by simp)]

theorem trimR_eq_self {s : Str} (h : NoWS s) : trimR s = s := by
  unfold trimR
  have : NoWS s.reverse := fun c hc => h c (List.mem_reverse.1 hc)
  cases hr : s.reverse with
  | nil => simp_all
  | cons c r =>
    rw [List.dropWhile_cons_of_neg]
    · rw [← hr, List.reverse_reverse]
    · have : jsWS c = false := this c (by rw [hr]; simp)
      simp [this]

theorem jsTrim_eq_self {s : Str} (h : NoWS s) : jsTrim s = s := by
  unfold jsTrim
  rw [trimL_eq_self h, trimR_eq_self h]

/-- The maximal whitespace-free runs of a string, in order. -/
def wordsOf : Str → List Str
  | [] => []
  | c :: rest =>
    if jsWS c then wordsOf rest
    else (c :: rest.takeWhile (fun x => !jsWS x)) :: wordsOf (rest.dropWhile (fun x => !jsWS x))
termination_by s => s.length
decreasing_by
  · simp
  · exact Nat.lt_succ_of_le (List.dropWhile_sublist _).length_le

theorem takeWhile_append_stop {α : Type} {p : α → Bool} {a : α} (A B : List α)
    (h : p a = false) : (A ++ a :: B).takeWhile p = A.takeWhile p := by
  induction A with
  | nil => simp [List.takeWhile_cons, h]
  | cons x A ih =>
    by_cases hx : p x <;> simp [List.takeWhile_cons, hx, ih]

theorem dropWhile_append_stop {α : Type} {p : α → Bool} {a : α} (A B : List α)
    (h : p a = false) : (A ++ a :: B).dropWhile p = A.dropWhile p ++ a :: B := by
  induction A with
  | nil => simp [List.dropWhile_cons, h]
  | cons x A ih =>
    by_cases hx : p x <;> simp [List.dropWhile_cons, hx, ih]

theorem takeWhile_append_all {α : Type} {p : α → Bool} (A B : List α)
    (h : ∀ x ∈ A, p x = true) : (A ++ B).takeWhile p = A ++ B.takeWhile p := by
  induction A with
  | nil => simp
  | cons x A ih =>
    simp only [List.cons_append, List.takeWhile_cons, h x (by simp), if_true]
    rw [ih (fun x hx => h x (by simp [hx]))]

theorem dropWhile_append_all {α : Type} {p : α → Bool} (A B : List α)
    (h : ∀ x ∈ A, p x = true) : (A ++ B).dropWhile p = B.dropWhile p := by
  induction A with
  | nil => simp
  | cons x A ih =>
    simp only [List.cons_append, List.dropWhile_cons, h x (by simp)]
    exact ih (fun x hx => h x (by simp [hx]))

theorem wordsOf_allWS {s : Str} (h : ∀ c ∈ s, jsWS c = true) : wordsOf s = [] := by
  induction s with
  | nil => rw [wordsOf]
  | cons c rest ih =>
    rw [wordsOf]
    simp only [h c (by simp), if_true]
    exact ih (fun x hx => h x (by simp [hx]))

theorem wordsOf_dropWhileWS (s : Str) :
    wordsOf (s.dropWhile (fun x => jsWS x)) = wordsOf s := by
  induction s with
  | nil => rw [List.dropWhile_nil]
  | cons c rest ih =>
    by_cases hc : jsWS c
    · rw [List.dropWhile_cons_of_pos (by simpa using hc), ih, wordsOf]
      simp [hc]
    · rw [List.dropWhile_cons_of_neg (by simpa using hc)]

theorem wordsOf_append_sep {a : Char} (ha : jsWS a = true) (A B : Str) :
    wordsOf (A ++ a :: B) = wordsOf A ++ wordsOf B := by
  induction A using wordsOf.induct with
  | case1 =>
    rw [List.nil_append, wordsOf, wordsOf]
    simp [ha]
  | case2 c rest hc ih =>
    rw [List.cons_append, wordsOf, wordsOf]
    simp only [hc, if_true]
    exact ih
  | case3 c rest hc ih =>
    rw [List.cons_append, wordsOf, wordsOf]
    simp only [hc, if_false, Bool.false_eq_true]
    rw [takeWhile_append_stop _ _ (by simp [ha]), dropWhile_append_stop _ _ (by simp [ha])]
    rw [ih, List.cons_append]

theorem wordsOf_append_allWS {S : Str} (hS : ∀ c ∈ S, jsWS c = true) (A : Str) :
    wordsOf (A ++ S) = wordsOf A := by
  cases S with
  | nil => simp
  | cons s₀ S' =>
    rw [wordsOf_append_sep (hS s₀ (by simp)) A S']
    rw [wordsOf_allWS (fun c hc => hS c (List.mem_cons_of_mem _ hc))]
    simp

theorem wordsOf_token {t : Str} (s : Str) (ht : t ≠ []) (hws : NoWS t) :
    wordsOf (t ++ s) =
      (t ++ s.takeWhile (fun x => !jsWS x)) :: wordsOf (s.dropWhile (fun x => !jsWS x)) := by
  cases t with
  | nil => exact absurd rfl ht
  | cons c t' =>
    rw [List.cons_append, wordsOf]
    have hc : jsWS c = false := hws c (by simp)
    simp only [hc, Bool.false_eq_true, if_false]
    have hall : ∀ x ∈ t', (fun x => !jsWS x) x = true := by
      intro x hx
      simp [hws x (by simp [hx])]
    rw [takeWhile_append_all _ _ hall, dropWhile_append_all _ _ hall]
    simp

theorem wordsOf_single {t : Str} (ht : t ≠ []) (hws : NoWS t) : wordsOf t = [t] := by
  have := wordsOf_token [] ht hws
  simpa [wordsOf] using this

theorem wordsOf_join {ts : List Str} (h : ∀ t ∈ ts, t ≠ [] ∧ NoWS t) :
    wordsOf (joinSep ' ' ts) = ts := by
  induction ts with
  | nil => rw [joinSep, wordsOf]
  | cons t rest ih =>
    cases rest with
    | nil =>
      rw [joinSep]
      exact wordsOf_single (h t (by simp)).1 (h t (by simp)).2
    | cons t₂ rest' =>
      rw [joinSep, wordsOf_token _ (h t (by simp)).1 (h t (by simp)).2]
      have hsp : jsWS ' ' = true := by decide
      rw [List.takeWhile_cons_of_neg (by simp [hsp]), List.dropWhile_cons_of_neg (by simp [hsp])]
      have : wordsOf (' ' :: joinSep ' ' (t₂ :: rest')) = wordsOf (joinSep ' ' (t₂ :: rest')) := by
        rw [wordsOf]
        simp [hsp]
      rw [this, ih (fun u hu => h u (by simp [hu]))]
      simp

theorem getLastD_irrel {α : Type} : ∀ (l : List α) (d d' : α), l ≠ [] → l.getLastD d = l.getLastD d'
  | [], _, _, h => absurd rfl h
  | x :: xs, d, d', _ => by rw [List.getLastD_cons, List.getLastD_cons]

theorem getLastD_mem {α : Type} (l : List α) (d : α) (h : l ≠ []) : l.getLastD d ∈ l := by
  cases l with
  | nil => exact absurd rfl h
  | cons x xs =>
    rw [List.getLastD_cons]
    exact List.getLastD_mem_cons xs x

theorem getLastD_cons_ne_nil {α : Type} {l : List α} (c d : α) (h : l ≠ []) :
    (c :: l).getLastD d = l.getLastD d := by
  rw [List.getLastD_cons]
  exact getLastD_irrel l c d h

theorem getLastD_append_ne_nil {α : Type} {r : List α} (d : α) (h : r ≠ []) :
    ∀ p : List α, (p ++ r).getLastD d = r.getLastD d := by
  intro p
  induction p with
  | nil => rfl
  | cons x p ih =>
    rw [List.cons_append, getLastD_cons_ne_nil x d (by simp [h]), ih]

theorem headD_dropWhile_not {α : Type} (p : α → Bool) : ∀ (l : List α) (d : α),
    l.dropWhile p ≠ [] → p ((l.dropWhile p).headD d) = false := by
  intro l
  induction l with
  | nil =>
    intro d h
    simp at h
  | cons a as ih =>
    intro d h
    by_cases ha : p a
    · rw [List.dropWhile_cons_of_pos ha] at h ⊢
      exact ih d h
    · rw [List.dropWhile_cons_of_neg ha]
      simpa using ha

theorem splitWS_wordsOf : ∀ (n : Nat) (v : Str), v.length ≤ n → v ≠ [] →
    jsWS (v.getLastD ' ') = false →
    splitWS v = if jsWS (v.headD ' ') then [] :: wordsOf v else wordsOf v := by
  intro n
  induction n with
  | zero =>
    intro v hlen hv _
    cases v with
    | nil => exact absurd rfl hv
    | cons c r => simp at hlen
  | succ n ih =>
    intro v hlen hv hlast
    match v, hv, hlen, hlast with
    | [c], _, _, hlast =>
      have hc : jsWS c = false := by
        simpa [List.getLastD_cons, List.getLastD_nil] using hlast
      rw [splitWS, if_neg (by simp [hc]), if_neg (by simp [hc])]
      rw [wordsOf]
      simp only [hc, Bool.false_eq_true, if_false, List.takeWhile_nil, List.dropWhile_nil]
      rw [wordsOf]
    | c₁ :: c₂ :: rest, _, hlen, hlast =>
      have hnn : (c₂ :: rest) ≠ [] := by simp
      have hlast2 : jsWS ((c₂ :: rest).getLastD ' ') = false := by
        rw [← getLastD_cons_ne_nil c₁ ' ' hnn]
        exact hlast
      have hlen2 : (c₂ :: rest).length ≤ n := by
        simp only [List.length_cons] at hlen ⊢
        omega
      have IH := ih (c₂ :: rest) hlen2 hnn hlast2
      by_cases h1 : jsWS c₁
      · have ew : wordsOf (c₁ :: c₂ :: rest) = wordsOf (c₂ :: rest) := by
          rw [wordsOf]
          simp [h1]
        by_cases h2 : jsWS c₂
        · rw [splitWS, if_pos h1, if_pos h2, IH]
          simp only [List.headD_cons]
          rw [if_pos h2, if_pos h1, ew]
        · rw [splitWS, if_pos h1, if_neg h2, IH]
          simp only [List.headD_cons]
          rw [if_neg h2, if_pos h1, ew]
      · rw [splitWS, if_neg h1, IH]
        simp only [List.headD_cons]
        rw [if_neg h1]
        by_cases h2 : jsWS c₂
        · rw [if_pos h2, consHead]
          conv_rhs => rw [wordsOf]
          simp only [h1, Bool.false_eq_true, if_false]
          rw [List.takeWhile_cons_of_neg (by simp [h2]), List.dropWhile_cons_of_neg (by simp [h2])]
        · rw [if_neg (by simp [h2])]
          have e3 : wordsOf (c₂ :: rest) =
              (c₂ :: rest.takeWhile (fun x => !jsWS x)) ::
                wordsOf (rest.dropWhile (fun x => !jsWS x)) := by
            rw [wordsOf]
            simp [h2]
          have e4 : wordsOf (c₁ :: c₂ :: rest) =
              (c₁ :: c₂ :: rest.takeWhile (fun x => !jsWS x)) ::
                wordsOf (rest.dropWhile (fun x => !jsWS x)) := by
            rw [wordsOf]
            simp only [h1, Bool.false_eq_true, if_false]
            rw [List.takeWhile_cons_of_pos (by simpa using h2), List.dropWhile_cons_of_pos (by simpa using h2)]
          rw [e3, e4, consHead]

theorem headD_append_ne_nil {α : Type} {v : List α} (S : List α) (d : α) (h : v ≠ []) :
    (v ++ S).headD d = v.headD d := by
  cases v with
  | nil => exact absurd rfl h
  | cons a as => rfl

theorem getLastD_reverse {α : Type} (l : List α) (d : α) :
    l.reverse.getLastD d = l.headD d := by
  cases l with
  | nil => rfl
  | cons a as =>
    rw [List.reverse_cons, List.getLastD_concat]
    rfl

theorem wordsOf_trimL (u : Str) : wordsOf (trimL u) = wordsOf u :=
  wordsOf_dropWhileWS u

theorem wordsOf_trimR (u : Str) : wordsOf (trimR u) = wordsOf u := by
  have hdec : u = trimR u ++ (u.reverse.takeWhile (fun c => jsWS c)).reverse := by
    unfold trimR
    rw [← List.reverse_append, List.takeWhile_append_dropWhile, List.reverse_reverse]
  have hws : ∀ c ∈ (u.reverse.takeWhile (fun c => jsWS c)).reverse, jsWS c = true := by
    intro c hc
    exact List.mem_takeWhile_imp (List.mem_reverse.1 hc)
  conv_rhs => rw [hdec]
  rw [wordsOf_append_allWS hws]

theorem trimL_nonempty {u : Str} (h : ∃ c ∈ u, jsWS c = false) : trimL u ≠ [] := by
  intro hnil
  obtain ⟨c, hc, hcws⟩ := h
  have := List.dropWhile_eq_nil_iff.1 hnil c hc
  rw [hcws] at this
  simp at this

theorem tokenize_eq_wordsOf {s : Str} (h : ∃ c ∈ jsLower s, jsWS c = false) :
    tokenize s = wordsOf (jsLower s) := by
  unfold tokenize jsTrim
  set u := jsLower s with hu
  set X := trimL u with hX
  have hXne : X ≠ [] := trimL_nonempty h
  have hXhead : jsWS (X.headD ' ') = false := by
    have h0 : u.dropWhile (fun c => jsWS c) ≠ [] := by
      rw [hX] at hXne
      exact hXne
    have := headD_dropWhile_not (fun c => jsWS c) u ' ' h0
    rw [hX, trimL]
    exact this
  set v := trimR X with hv
  have hvdec : X = v ++ (X.reverse.takeWhile (fun c => jsWS c)).reverse := by
    rw [hv]
    unfold trimR
    rw [← List.reverse_append, List.takeWhile_append_dropWhile, List.reverse_reverse]
  have hvne : v ≠ [] := by
    intro hnil
    rw [hnil, List.nil_append] at hvdec
    have : jsWS (X.headD ' ') = true := by
      conv_lhs => rw [hvdec]
      cases hc : (X.reverse.takeWhile (fun c => jsWS c)).reverse with
      | nil =>
        rw [hc] at hvdec
        exact absurd hvdec hXne
      | cons a as =>
        have ha : a ∈ X.reverse.takeWhile (fun c => jsWS c) := by
          rw [← List.mem_reverse, hc]
          simp
        simpa using List.mem_takeWhile_imp ha
    rw [hXhead] at this
    simp at this
  have hvhead : jsWS (v.headD ' ') = false := by
    rw [← headD_append_ne_nil (X.reverse.takeWhile (fun c => jsWS c)).reverse ' ' hvne, ← hvdec]
    exact hXhead
  have hvlast : jsWS (v.getLastD ' ') = false := by
    rw [hv]
    unfold trimR
    rw [getLastD_reverse]
    have h0 : X.reverse.dropWhile (fun c => jsWS c) ≠ [] := by
      intro hnil
      apply hvne
      rw [hv]
      unfold trimR
      rw [hnil, List.reverse_nil]
    exact headD_dropWhile_not (fun c => jsWS c) X.reverse ' ' h0
  rw [splitWS_wordsOf v.length v (le_refl _) hvne hvlast, if_neg (by simpa using hvhead)]
  rw [hv, wordsOf_trimR, hX, wordsOf_trimL]

theorem jsLower_joinSepSpace : ∀ ts : List Str,
    jsLower (joinSep ' ' ts) = joinSep ' ' (ts.map jsLower)
  | [] => rfl
  | [s] => by rw [joinSep, List.map_cons, List.map_nil, joinSep]
  | s :: t :: rest => by
    rw [joinSep, List.map_cons, List.map_cons, joinSep]
    unfold jsLower
    rw [List.map_append, List.map_cons]
    have h1 : lowerChar ' ' = ' ' := by decide
    rw [h1]
    have := jsLower_joinSepSpace (t :: rest)
    unfold jsLower at this
    rw [this]
    rw [List.map_cons]

theorem mem_joinSep_head {t : Str} {ts : List Str} {c : Char} (ht : t :: ts ≠ [])
    (hc : c ∈ t) : c ∈ joinSep ' ' (t :: ts) := by
  cases ts with
  | nil => rw [joinSep]; exact hc
  | cons t₂ rest => rw [joinSep]; exact List.mem_append_left _ hc

theorem tokenize_joinSep {ts : List Str} (hne : ts ≠ [])
    (h : ∀ t ∈ ts, t ≠ [] ∧ NoWS t ∧ jsLower t = t) :
    tokenize (joinSep ' ' ts) = ts := by
  have hmap : ts.map jsLower = ts := by
    rw [List.map_congr_left (fun t ht => (h t ht).2.2)]
    exact List.map_id ts
  have hlow : jsLower (joinSep ' ' ts) = joinSep ' ' ts := by
    rw [jsLower_joinSepSpace, hmap]
  cases ts with
  | nil => exact absurd rfl hne
  | cons t rest =>
    have ht := h t (by simp)
    have hex : ∃ c ∈ jsLower (joinSep ' ' (t :: rest)), jsWS c = false := by
      rw [hlow]
      obtain ⟨c, hc⟩ := List.exists_mem_of_ne_nil t ht.1
      exact ⟨c, mem_joinSep_head (by simp) hc, ht.2.1 c hc⟩
    rw [tokenize_eq_wordsOf hex, hlow]
    exact wordsOf_join (fun u hu => ⟨(h u hu).1, (h u hu).2.1⟩)

theorem tokenize_append_tokens {s : Str} {ts : List Str}
    (hs : ∃ c ∈ jsLower s, jsWS c = false) (hts : ∀ t ∈ ts, t ≠ [] ∧ NoWS t) :
    tokenize (s ++ ' ' :: joinSep ' ' ts) = tokenize s ++ ts.map jsLower := by
  have hsp : lowerChar ' ' = ' ' := by decide
  have hdist : jsLower (s ++ ' ' :: joinSep ' ' ts)
      = jsLower s ++ ' ' :: joinSep ' ' (ts.map jsLower) := by
    unfold jsLower
    rw [List.map_append, List.map_cons, hsp]
    have := jsLower_joinSepSpace ts
    unfold jsLower at this
    rw [this]
  have hex : ∃ c ∈ jsLower (s ++ ' ' :: joinSep ' ' ts), jsWS c = false := by
    obtain ⟨c, hc, hcws⟩ := hs
    refine ⟨c, ?_, hcws⟩
    unfold jsLower at hc ⊢
    rw [List.map_append]
    exact List.mem_append_left _ hc
  rw [tokenize_eq_wordsOf hex, hdist]
  rw [wordsOf_append_sep (by decide) (jsLower s) (joinSep ' ' (ts.map jsLower))]
  rw [tokenize_eq_wordsOf hs]
  congr 1
  exact wordsOf_join (fun u hu => by
    obtain ⟨t, ht, rfl⟩ := List.mem_map.1 hu
    exact ⟨jsLower_ne_nil (hts t ht).1, jsLower_noWS (hts t ht).2⟩)

/-!
## Hexadecimal rendering and parsing lemmas
-/

theorem toHexAux_acc : ∀ (n : Nat) (acc : Str), toHexAux n acc = toHexAux n [] ++ acc := by
  intro n
  induction n using Nat.strong_induction_on with
  | _ n ih =>
    intro acc
    by_cases h : n = 0
    · rw [toHexAux, dif_pos h]
      conv_rhs => rw [toHexAux, dif_pos h]
      rfl
    · rw [toHexAux, dif_neg h]
      conv_rhs => rw [toHexAux, dif_neg h]
      have hlt : n / 16 < n := Nat.div_lt_self (Nat.pos_of_ne_zero h) (by norm_num)
      rw [ih (n / 16) hlt (hexDigitChar (n % 16) :: acc), ih (n / 16) hlt [hexDigitChar (n % 16)]]
      rw [List.append_assoc]
      rfl

theorem toHexAux_ne_nil {n : Nat} (h : n ≠ 0) : toHexAux n [] ≠ [] := by
  rw [toHexAux, dif_neg h, toHexAux_acc]
  simp

theorem toHex_ne_nil (n : Nat) : toHex n ≠ [] := by
  unfold toHex
  split
  · simp
  · exact toHexAux_ne_nil (by assumption)

theorem hexDigitChar_props : ∀ d, d < 16 →
    isHexDigit (hexDigitChar d) = true ∧ hexDigitChar d ≠ ':' ∧
      jsWS (hexDigitChar d) = false ∧ lowerChar (hexDigitChar d) = hexDigitChar d ∧
      hexVal (hexDigitChar d) = d ∧ lowerChar (hexDigitChar d) ≠ ':' := by
  decide

theorem toHexAux_mem : ∀ (n : Nat) (c : Char), c ∈ toHexAux n [] → ∃ d, d < 16 ∧ c = hexDigitChar d := by
  intro n
  induction n using Nat.strong_induction_on with
  | _ n ih =>
    intro c hc
    by_cases h : n = 0
    · rw [toHexAux, dif_pos h] at hc
      simp at hc
    · rw [toHexAux, dif_neg h, toHexAux_acc] at hc
      rcases List.mem_append.1 hc with h1 | h2
      · exact ih (n / 16) (Nat.div_lt_self (Nat.pos_of_ne_zero h) (by norm_num)) c h1
      · have : c = hexDigitChar (n % 16) := by simpa using h2
        exact ⟨n % 16, Nat.mod_lt _ (by norm_num), this⟩

theorem toHex_mem {n : Nat} {c : Char} (hc : c ∈ toHex n) : ∃ d, d < 16 ∧ c = hexDigitChar d := by
  unfold toHex at hc
  split at hc
  · have : c = '0' := by simpa using hc
    exact ⟨0, by norm_num, by rw [this]; rfl⟩
  · exact toHexAux_mem n c hc

theorem toHex_hexDigits {n : Nat} : ∀ c ∈ toHex n, isHexDigit c = true := by
  intro c hc
  obtain ⟨d, hd, rfl⟩ := toHex_mem hc
  exact (hexDigitChar_props d hd).1

theorem toHex_noWS {n : Nat} : NoWS (toHex n) := by
  intro c hc
  obtain ⟨d, hd, rfl⟩ := toHex_mem hc
  exact (hexDigitChar_props d hd).2.2.1

theorem toHex_noColon {n : Nat} : ∀ c ∈ toHex n, c ≠ ':' := by
  intro c hc
  obtain ⟨d, hd, rfl⟩ := toHex_mem hc
  exact (hexDigitChar_props d hd).2.1

theorem jsLower_toHex (n : Nat) : jsLower (toHex n) = toHex n := by
  unfold jsLower
  have h : ∀ c ∈ toHex n, lowerChar c = id c := fun c hc => by
    obtain ⟨d, hd, rfl⟩ := toHex_mem hc
    exact (hexDigitChar_props d hd).2.2.2.1
  rw [List.map_congr_left h]
  exact List.map_id _

theorem parseIntHex_toHexAux : ∀ n : Nat, parseIntHex (toHexAux n []) = n := by
  intro n
  induction n using Nat.strong_induction_on with
  | _ n ih =>
    by_cases h : n = 0
    · rw [h, toHexAux, dif_pos rfl]
      rfl
    · rw [toHexAux, dif_neg h, toHexAux_acc]
      unfold parseIntHex
      rw [List.foldl_append]
      have := ih (n / 16) (Nat.div_lt_self (Nat.pos_of_ne_zero h) (by norm_num))
      unfold parseIntHex at this
      rw [this, List.foldl_cons, List.foldl_nil,
        (hexDigitChar_props (n % 16) (Nat.mod_lt _ (by norm_num))).2.2.2.2.1]
      rw [Nat.mul_comm (n / 16) 16]
      exact Nat.div_add_mod n 16

theorem parseIntHex_toHex (n : Nat) : parseIntHex (toHex n) = n := by
  unfold toHex
  split
  · subst_vars
    rfl
  · exact parseIntHex_toHexAux n

theorem toHex_eq_zeroStr_iff (n : Nat) : (toHex n = ['0']) = (n = 0) := by
  apply propext
  constructor
  · intro h
    have := parseIntHex_toHex n
    rw [h] at this
    simpa using this.symm
  · intro h
    rw [h]
    rfl

theorem parseIntHex_replicate_zero (k : Nat) (s : Str) :
    parseIntHex (List.replicate k '0' ++ s) = parseIntHex s := by
  induction k with
  | zero => rw [List.replicate_zero, List.nil_append]
  | succ k ih =>
    rw [List.replicate_succ, List.cons_append]
    unfold parseIntHex at ih ⊢
    rw [List.foldl_cons]
    have h0 : hexVal '0' = 0 := by decide
    rw [h0]
    exact ih

theorem parseIntHex_padStart4 (s : Str) : parseIntHex (padStart4 s) = parseIntHex s := by
  unfold padStart4
  exact parseIntHex_replicate_zero _ s

theorem parseSegment_of_hex {s : Str} (hne : s ≠ []) (hhex : ∀ c ∈ s, isHexDigit c = true)
    (hnws : NoWS s) : parseSegment s = .ok (parseIntHex s) := by
  unfold parseSegment
  rw [jsTrim_eq_self hnws]
  rw [if_neg hne, if_pos (List.all_eq_true.2 hhex)]

theorem parseSegment_toHex (n : Nat) : parseSegment (toHex n) = .ok n := by
  rw [parseSegment_of_hex (toHex_ne_nil n) toHex_hexDigits toHex_noWS, parseIntHex_toHex]

theorem padStart4_ne_nil (s : Str) : padStart4 s ≠ [] → True := fun _ => trivial

theorem padStart4_mem {s : Str} {c : Char} (hc : c ∈ padStart4 s) : c = '0' ∨ c ∈ s := by
  unfold padStart4 at hc
  rcases List.mem_append.1 hc with h | h
  · exact Or.inl (List.eq_of_mem_replicate h)
  · exact Or.inr h

theorem parseSegment_padToHex (n : Nat) : parseSegment (padStart4 (toHex n)) = .ok n := by
  rw [parseSegment_of_hex ?_ ?_ ?_]
  · rw [parseIntHex_padStart4, parseIntHex_toHex]
  · unfold padStart4
    intro h
    exact toHex_ne_nil n (List.append_eq_nil.1 h).2
  · intro c hc
    rcases padStart4_mem hc with rfl | h
    · decide
    · exact toHex_hexDigits c h
  · intro c hc
    rcases padStart4_mem hc with rfl | h
    · decide
    · exact toHex_noWS c h

theorem parseSegments_append {A B : List Str} {va vb : List Nat}
    (ha : parseSegments A = .ok va) (hb : parseSegments B = .ok vb) :
    parseSegments (A ++ B) = .ok (va ++ vb) := by
  induction A generalizing va with
  | nil =>
    rw [parseSegments] at ha
    cases ha
    rw [List.nil_append, List.nil_append]
    exact hb
  | cons s rest ih =>
    rw [parseSegments] at ha
    rw [List.cons_append, parseSegments]
    cases hs : parseSegment s with
    | error e =>
      rw [hs] at ha
      simp only [Bind.bind, Except.bind] at ha
      exact Except.noConfusion ha
    | ok v =>
      rw [hs] at ha
      cases hr : parseSegments rest with
      | error e =>
        rw [hr] at ha
        simp only [Bind.bind, Except.bind] at ha
        exact Except.noConfusion ha
      | ok vs =>
        rw [hr] at ha
        simp only [Bind.bind, Except.bind] at ha
        cases ha
        simp only [Bind.bind, Except.bind]
        rw [ih hr]
        rw [List.cons_append]

theorem parseSegments_replicate_zero (k : Nat) :
    parseSegments (List.replicate k ['0']) = .ok (List.replicate k 0) := by
  induction k with
  | zero => rfl
  | succ k ih =>
    rw [List.replicate_succ, List.replicate_succ, parseSegments]
    have h0 : parseSegment ['0'] = .ok 0 := by rfl
    rw [h0, ih]
    rfl

theorem parseSegments_map_toHex (fields : List Nat) :
    parseSegments (fields.map toHex) = .ok fields := by
  induction fields with
  | nil => rfl
  | cons f rest ih =>
    rw [List.map_cons, parseSegments, parseSegment_toHex f, ih]
    rfl

theorem parseSegments_map_padToHex (fields : List Nat) :
    parseSegments (fields.map (fun f => padStart4 (toHex f))) = .ok fields := by
  induction fields with
  | nil => rfl
  | cons f rest ih =>
    rw [List.map_cons, parseSegments, parseSegment_padToHex f, ih]
    rfl

/-!
## Split/join lemmas for `':'` and `"::"`
-/

/-- Whether the string contains two adjacent colons. -/
def hasAdjCC : Str → Bool
  | c₁ :: c₂ :: rest => (c₁ = ':' ∧ c₂ = ':') ∨ hasAdjCC (c₂ :: rest)
  | _ => false

theorem infixDC_of_hasAdjCC : ∀ s : Str, hasAdjCC s = true → [':', ':'] <:+: s
  | [] => by
    intro h
    simp [hasAdjCC] at h
  | [c] => by
    intro h
    simp [hasAdjCC] at h
  | c₁ :: c₂ :: rest => by
    intro h
    rw [hasAdjCC] at h
    simp only [Bool.or_eq_true, decide_eq_true_eq] at h
    rcases h with ⟨rfl, rfl⟩ | h
    · exact ⟨[], rest, rfl⟩
    · obtain ⟨p, q, hpq⟩ := infixDC_of_hasAdjCC (c₂ :: rest) h
      exact ⟨c₁ :: p, q, by rw [← hpq]; rfl⟩

theorem hasAdjCC_of_cc : ∀ (p q : Str), hasAdjCC (p ++ ':' :: ':' :: q) = true := by
  intro p
  induction p with
  | nil =>
    intro q
    rw [List.nil_append, hasAdjCC]
    simp
  | cons x p' ih =>
    intro q
    rw [List.cons_append]
    have hne : p' ++ ':' :: ':' :: q ≠ [] := by simp
    cases hpq : p' ++ ':' :: ':' :: q with
    | nil => exact absurd hpq hne
    | cons r₁ rs =>
      rw [hasAdjCC]
      have := ih q
      rw [hpq] at this
      simp [this]

theorem hasAdjCC_iff_infixDC (s : Str) : hasAdjCC s = true ↔ [':', ':'] <:+: s := by
  constructor
  · exact infixDC_of_hasAdjCC s
  · rintro ⟨p, q, rfl⟩
    simpa [List.append_assoc] using hasAdjCC_of_cc p q

theorem hasAdjCC_append_colonFree {s : Str} (h : ∀ c ∈ s, c ≠ ':') (r : Str) :
    hasAdjCC (s ++ r) = hasAdjCC r := by
  induction s with
  | nil => rw [List.nil_append]
  | cons a s' ih =>
    have ha : a ≠ ':' := h a (by simp)
    rw [List.cons_append]
    cases hsr : s' ++ r with
    | nil =>
      rcases List.append_eq_nil.1 hsr with ⟨rfl, rfl⟩
      rfl
    | cons b bs =>
      rw [hasAdjCC, ← hsr, ih (fun c hc => h c (by simp [hc]))]
      simp [ha]

theorem hasAdjCC_single_colon (r : Str) (hr : r.headD ' ' ≠ ':') :
    hasAdjCC (':' :: r) = hasAdjCC r := by
  cases r with
  | nil => rfl
  | cons b bs =>
    rw [hasAdjCC]
    simp only [List.headD_cons] at hr
    simp [hr]

/-- `joinSep` over a nonempty list of nonempty segments is nonempty. -/
theorem joinSep_ne_nil {sep : Char} : ∀ {segs : List Str}, segs ≠ [] →
    (∀ s ∈ segs, s ≠ []) → joinSep sep segs ≠ []
  | [], h, _ => absurd rfl h
  | [s], _, hs => by
    rw [joinSep]
    exact hs s (by simp)
  | s :: t :: rest, _, hs => by
    rw [joinSep]
    intro hc
    exact hs s (by simp) (List.append_eq_nil.1 hc).1

theorem headD_joinSep {sep : Char} : ∀ {segs : List Str}, segs ≠ [] →
    (∀ s ∈ segs, s ≠ []) → ∀ d, (joinSep sep segs).headD d = (segs.headD []).headD d
  | [], h, _ => absurd rfl h
  | [s], _, _ => by
    intro d
    rw [joinSep, List.headD_cons]
  | s :: t :: rest, _, hs => by
    intro d
    rw [joinSep, List.headD_cons, headD_append_ne_nil _ _ (hs s (by simp))]

theorem getLastD_joinSep {sep : Char} : ∀ {segs : List Str}, segs ≠ [] →
    (∀ s ∈ segs, s ≠ []) → ∀ d, (joinSep sep segs).getLastD d = (segs.getLastD []).getLastD d
  | [], h, _ => absurd rfl h
  | [s], _, _ => by
    intro d
    rw [joinSep, List.getLastD_cons, List.getLastD_nil]
  | s :: t :: rest, _, hs => by
    intro d
    rw [joinSep]
    have h1 : joinSep sep (t :: rest) ≠ [] :=
      joinSep_ne_nil (by simp) (fun u hu => hs u (by simp [hu]))
    rw [getLastD_append_ne_nil d (by simp [h1]) s]
    rw [getLastD_cons_ne_nil sep d h1]
    rw [getLastD_joinSep (by simp) (fun u hu => hs u (by simp [hu])) d]
    rw [getLastD_cons_ne_nil s [] (by simp)]

theorem hasAdjCC_joinSep : ∀ {segs : List Str}, (∀ s ∈ segs, s ≠ []) →
    (∀ s ∈ segs, ∀ c ∈ s, c ≠ ':') → hasAdjCC (joinSep ':' segs) = false
  | [], _, _ => rfl
  | [s], _, hc => by
    rw [joinSep]
    have := hasAdjCC_append_colonFree (hc s (by simp)) []
    simpa using this
  | s :: t :: rest, hne, hc => by
    rw [joinSep]
    rw [hasAdjCC_append_colonFree (hc s (by simp))]
    have hhead : (joinSep ':' (t :: rest)).headD ' ' ≠ ':' := by
      rw [headD_joinSep (by simp) (fun u hu => hne u (by simp [hu])) ' ']
      rw [List.headD_cons]
      cases ht : t with
      | nil => exact absurd ht (hne t (by simp))
      | cons a as =>
        rw [List.headD_cons]
        exact hc t (by simp) a (by simp [ht])
    rw [hasAdjCC_single_colon _ hhead]
    exact hasAdjCC_joinSep (fun u hu => hne u (by simp [hu])) (fun u hu => hc u (by simp [hu]))

theorem splitChar_sepFree {sep : Char} : ∀ {s : Str}, (∀ c ∈ s, c ≠ sep) →
    splitChar sep s = [s]
  | [], _ => rfl
  | a :: as, h => by
    rw [splitChar, if_neg (by simpa using h a (by simp))]
    rw [splitChar_sepFree (fun c hc => h c (by simp [hc]))]
    rfl

theorem splitChar_seg_cc {sep : Char} : ∀ {s : Str}, (∀ c ∈ s, c ≠ sep) → ∀ q : Str,
    splitChar sep (s ++ sep :: q) = s :: splitChar sep q
  | [], _ => by
    intro q
    rw [List.nil_append, splitChar, if_pos rfl]
  | a :: as, h => by
    intro q
    rw [List.cons_append, splitChar, if_neg (by simpa using h a (by simp))]
    rw [splitChar_seg_cc (fun c hc => h c (by simp [hc])) q]
    rfl

theorem splitChar_joinSep {sep : Char} : ∀ {segs : List Str}, segs ≠ [] →
    (∀ s ∈ segs, ∀ c ∈ s, c ≠ sep) → splitChar sep (joinSep sep segs) = segs
  | [], h, _ => absurd rfl h
  | [s], _, hc => by
    rw [joinSep]
    exact splitChar_sepFree (hc s (by simp))
  | s :: t :: rest, _, hc => by
    rw [joinSep, splitChar_seg_cc (hc s (by simp))]
    rw [splitChar_joinSep (by simp) (fun u hu => hc u (by simp [hu]))]

theorem splitDC_noAdjCC : ∀ {s : Str}, hasAdjCC s = false → splitDC s = [s]
  | [], _ => rfl
  | [c], _ => rfl
  | c₁ :: c₂ :: rest, h => by
    rw [hasAdjCC] at h
    simp only [decide_eq_false_iff_not] at h
    push_neg at h
    rw [splitDC, if_neg (fun hcc => h.1 hcc.1 hcc.2)]
    rw [splitDC_noAdjCC (by simpa using h.2)]
    rfl

theorem splitDC_mid : ∀ {A : Str}, hasAdjCC A = false → A.getLastD '0' ≠ ':' →
    ∀ B : Str, splitDC (A ++ ':' :: ':' :: B) = A :: splitDC B
  | [], _, _ => by
    intro B
    rw [List.nil_append, splitDC, if_pos ⟨rfl, rfl⟩]
  | [a], _, hlast => by
    intro B
    simp only [List.getLastD_cons, List.getLastD_nil] at hlast
    rw [List.cons_append, List.nil_append, splitDC, if_neg (by simp [hlast])]
    rw [splitDC, if_pos ⟨rfl, rfl⟩]
    rfl
  | a₁ :: a₂ :: A', h, hlast => by
    intro B
    rw [hasAdjCC] at h
    simp only [decide_eq_false_iff_not] at h
    push_neg at h
    rw [List.cons_append, List.cons_append, splitDC, if_neg (fun hcc => h.1 hcc.1 hcc.2)]
    rw [← List.cons_append]
    rw [splitDC_mid (by simpa using h.2) (by
      rw [← getLastD_cons_ne_nil a₁ '0' (by simp)]
      exact hlast) B]
    rfl

/-!
## The zero-run scan: bridge to the boolean model and decided facts
-/

/-- Start of an optional run (`longestZeroRun.start`; 0 for the sentinel). -/
def runStart : Option (Nat × Nat) → Nat
  | none => 0
  | some (s, _) => s

/-- The run the code compresses: the loop's answer when its length is at
least 2, nothing otherwise. -/
def codeRun (bs : List Bool) : Option (Nat × Nat) :=
  match runModel bs with
  | some (s, l) => if 2 ≤ l then some (s, l) else none
  | none => none

theorem findRunGo_eq_runModelGo : ∀ (segs : List Str) (i : Nat)
    (cur best : Option (Nat × Nat)),
    findRunGo segs i cur best = runModelGo (segs.map (fun s => decide (s = ['0']))) i cur best := by
  intro segs
  induction segs with
  | nil =>
    intro i cur best
    rw [List.map_nil]
    cases cur with
    | none => rw [findRunGo, runModelGo]
    | some r =>
      cases r with
      | mk s l => rw [findRunGo, runModelGo]
  | cons seg rest ih =>
    intro i cur best
    rw [List.map_cons]
    by_cases hs : seg = ['0']
    · cases cur with
      | none =>
        rw [findRunGo, runModelGo, if_pos hs, if_pos (by simp [hs]), ih]
      | some r =>
        cases r with
        | mk s l => rw [findRunGo, runModelGo, if_pos hs, if_pos (by simp [hs]), ih]
    · have hs' : ¬(decide (seg = ['0']) = true) := by simpa using hs
      cases cur with
      | none =>
        rw [findRunGo, runModelGo, if_neg hs, if_neg hs', ih]
      | some r =>
        cases r with
        | mk s l => rw [findRunGo, runModelGo, if_neg hs, if_neg hs', ih]

theorem findRun_eq_runModel (segs : List Str) :
    findRun segs = runModel (segs.map (fun s => decide (s = ['0']))) :=
  findRunGo_eq_runModelGo segs 0 none none

theorem map_zeroTest_toHex (fields : List Nat) :
    (fields.map toHex).map (fun s => decide (s = ['0'])) = fields.map (fun f => decide (f = 0)) := by
  rw [List.map_map]
  exact List.map_congr_left (fun f _ => decide_eq_decide.2 (iff_of_eq (toHex_eq_zeroStr_iff f)))

theorem runModel_facts_bools : ∀ b₀ b₁ b₂ b₃ b₄ b₅ b₆ b₇ : Bool,
    runStart (codeRun [b₀, b₁, b₂, b₃, b₄, b₅, b₆, b₇]) +
        runLen (codeRun [b₀, b₁, b₂, b₃, b₄, b₅, b₆, b₇]) ≤ 8 ∧
      (codeRun [b₀, b₁, b₂, b₃, b₄, b₅, b₆, b₇] = none ∨
        (2 ≤ runLen (codeRun [b₀, b₁, b₂, b₃, b₄, b₅, b₆, b₇]) ∧
          ([b₀, b₁, b₂, b₃, b₄, b₅, b₆, b₇].take
              (runStart (codeRun [b₀, b₁, b₂, b₃, b₄, b₅, b₆, b₇]) +
                runLen (codeRun [b₀, b₁, b₂, b₃, b₄, b₅, b₆, b₇]))).drop
              (runStart (codeRun [b₀, b₁, b₂, b₃, b₄, b₅, b₆, b₇]))
            = List.replicate (runLen (codeRun [b₀, b₁, b₂, b₃, b₄, b₅, b₆, b₇])) true)) := by
  decide

theorem codeRun_eq_specBestRun_bools : ∀ b₀ b₁ b₂ b₃ b₄ b₅ b₆ b₇ : Bool,
    codeRun [b₀, b₁, b₂, b₃, b₄, b₅, b₆, b₇] = specBestRun [b₀, b₁, b₂, b₃, b₄, b₅, b₆, b₇] := by
  decide

theorem exists_eight_bools {bs : List Bool} (h : bs.length = 8) :
    ∃ b₀ b₁ b₂ b₃ b₄ b₅ b₆ b₇, bs = [b₀, b₁, b₂, b₃, b₄, b₅, b₆, b₇] := by
  match bs, h with
  | [b₀, b₁, b₂, b₃, b₄, b₅, b₆, b₇], _ =>
    exact ⟨b₀, b₁, b₂, b₃, b₄, b₅, b₆, b₇, rfl⟩

theorem runModel_facts {bs : List Bool} (h : bs.length = 8) :
    runStart (codeRun bs) + runLen (codeRun bs) ≤ 8 ∧
      (codeRun bs = none ∨
        (2 ≤ runLen (codeRun bs) ∧
          (bs.take (runStart (codeRun bs) + runLen (codeRun bs))).drop (runStart (codeRun bs))
            = List.replicate (runLen (codeRun bs)) true)) := by
  obtain ⟨b₀, b₁, b₂, b₃, b₄, b₅, b₆, b₇, rfl⟩ := exists_eight_bools h
  exact runModel_facts_bools b₀ b₁ b₂ b₃ b₄ b₅ b₆ b₇

theorem codeRun_eq_specBestRun {bs : List Bool} (h : bs.length = 8) :
    codeRun bs = specBestRun bs := by
  obtain ⟨b₀, b₁, b₂, b₃, b₄, b₅, b₆, b₇, rfl⟩ := exists_eight_bools h
  exact codeRun_eq_specBestRun_bools b₀ b₁ b₂ b₃ b₄ b₅ b₆ b₇

/-!
## Parsing the rendered form back
-/

theorem contains_of_mem {s : Str} {c : Char} (h : c ∈ s) : s.contains c = true :=
  List.elem_eq_true_of_mem h

theorem expandIPv6_of_segmentsOf {addr : Str} {segs : List Str}
    (h : segmentsOf addr = .ok segs) : expandIPv6 addr = parseSegments segs := by
  unfold expandIPv6
  rw [h]
  rfl

theorem segmentsOf_joinSegs {segs : List Str} (h8 : segs.length = 8)
    (hne : ∀ s ∈ segs, s ≠ []) (hcf : ∀ s ∈ segs, ∀ c ∈ s, c ≠ ':') :
    segmentsOf (joinSep ':' segs) = .ok segs := by
  have hmem : ':' ∈ joinSep ':' segs := by
    cases segs with
    | nil => simp at h8
    | cons s rest =>
      cases rest with
      | nil => simp at h8
      | cons t rest' =>
        rw [joinSep]
        exact List.mem_append_right _ (by simp)
  have hadj : hasAdjCC (joinSep ':' segs) = false := hasAdjCC_joinSep hne hcf
  unfold segmentsOf
  rw [if_neg (by simpa using hmem)]
  have hdc : jsIncludesDC (joinSep ':' segs) = false := by
    unfold jsIncludesDC
    rw [decide_eq_false_iff_not]
    intro hinf
    rw [← hasAdjCC_iff_infixDC] at hinf
    rw [hadj] at hinf
    exact Bool.noConfusion hinf
  rw [if_neg (by simp [hdc])]
  rw [splitChar_joinSep (by intro h0; rw [h0] at h8; simp at h8) hcf]
  rw [if_neg (by simp [h8])]

theorem segmentsOf_ccForm (before after : List Str)
    (hbne : ∀ s ∈ before, s ≠ []) (hbcf : ∀ s ∈ before, ∀ c ∈ s, c ≠ ':')
    (hane : ∀ s ∈ after, s ≠ []) (hacf : ∀ s ∈ after, ∀ c ∈ s, c ≠ ':')
    (hlen : before.length + after.length ≤ 8) :
    segmentsOf (joinSep ':' before ++ ':' :: ':' :: joinSep ':' after)
      = .ok (before ++ List.replicate (8 - (before.length + after.length)) ['0'] ++ after) := by
  have hmem : ':' ∈ joinSep ':' before ++ ':' :: ':' :: joinSep ':' after :=
    List.mem_append_right _ (by simp)
  have hinf : [':', ':'] <:+: joinSep ':' before ++ ':' :: ':' :: joinSep ':' after := by
    refine ⟨joinSep ':' before, joinSep ':' after, ?_⟩
    simp
  have hadjB : hasAdjCC (joinSep ':' before) = false := hasAdjCC_joinSep hbne hbcf
  have hadjA : hasAdjCC (joinSep ':' after) = false := hasAdjCC_joinSep hane hacf
  have hlastB : (joinSep ':' before).getLastD '0' ≠ ':' := by
    cases hb : before with
    | nil =>
      rw [joinSep]
      decide
    | cons b bs =>
      rw [← hb]
      rw [getLastD_joinSep (by rw [hb]; simp) hbne '0']
      have hlastmem : before.getLastD [] ∈ before := by
        rw [hb]
        exact getLastD_mem _ [] (by simp)
      have hlast2 : (before.getLastD []).getLastD '0' ∈ before.getLastD [] :=
        getLastD_mem _ '0' (hbne _ hlastmem)
      exact hbcf _ hlastmem _ hlast2
  unfold segmentsOf
  rw [if_neg (by simp [hmem])]
  have hdc : jsIncludesDC (joinSep ':' before ++ ':' :: ':' :: joinSep ':' after) = true := by
    unfold jsIncludesDC
    rw [decide_eq_true_eq]
    exact hinf
  rw [if_pos (by simp [hdc])]
  rw [splitDC_mid hadjB hlastB, splitDC_noAdjCC hadjA]
  simp only [List.length_cons, List.length_singleton]
  rw [if_neg (by norm_num)]
  have hleft : (if (([joinSep ':' before, joinSep ':' after].getD 0 []) ≠ []) then
      splitChar ':' ([joinSep ':' before, joinSep ':' after].getD 0 []) else []) = before := by
    simp only [List.getD_cons_zero]
    cases hb : before with
    | nil =>
      rw [if_neg (by rw [joinSep]; simp)]
    | cons b bs =>
      rw [← hb, if_pos (joinSep_ne_nil (by rw [hb]; simp) hbne)]
      exact splitChar_joinSep (by rw [hb]; simp) hbcf
  have hright : (if (([joinSep ':' before, joinSep ':' after].getD 1 []) ≠ []) then
      splitChar ':' ([joinSep ':' before, joinSep ':' after].getD 1 []) else []) = after := by
    simp only [List.getD_cons_succ, List.getD_cons_zero]
    cases ha : after with
    | nil =>
      rw [if_neg (by rw [joinSep]; simp)]
    | cons a as =>
      rw [← ha, if_pos (joinSep_ne_nil (by rw [ha]; simp) hane)]
      exact splitChar_joinSep (by rw [ha]; simp) hacf
  rw [hleft, hright]
  rw [if_neg (by omega)]

theorem map_decide_eq_replicate_true {fields : List Nat} {l : Nat}
    (h : fields.map (fun f => decide (f = 0)) = List.replicate l true) :
    fields = List.replicate l 0 := by
  rw [List.eq_replicate_iff]
  constructor
  · have := congrArg List.length h
    simpa using this
  · intro b hb
    have : decide (b = 0) = true := by
      have hm : decide (b = 0) ∈ fields.map (fun f => decide (f = 0)) :=
        List.mem_map.2 ⟨b, hb, rfl⟩
      rw [h] at hm
      exact List.eq_of_mem_replicate hm
    simpa using this

theorem fields_decomp {fields : List Nat} {s l : Nat}
    (hmid : ((fields.map (fun f => decide (f = 0))).take (s + l)).drop s
      = List.replicate l true) :
    fields = fields.take s ++ List.replicate l 0 ++ fields.drop (s + l) := by
  have hmid' : (fields.take (s + l)).drop s = List.replicate l 0 := by
    apply map_decide_eq_replicate_true
    rw [List.map_drop, List.map_take]
    exact hmid
  have h1 : fields.take s ++ (fields.take (s + l)).drop s ++ fields.drop (s + l) = fields := by
    have h2 : (fields.take (s + l)).take s = fields.take s := by
      rw [List.take_take]
      congr 1
      omega
    have e1 : fields.take s ++ (fields.take (s + l)).drop s = fields.take (s + l) := by
      conv_lhs => rw [← h2]
      exact List.take_append_drop s (fields.take (s + l))
    rw [e1, List.take_append_drop]
  rw [← hmid']
  exact h1.symm

theorem expandIPv6_renderFields {fields : List Nat} (h8 : fields.length = 8) :
    expandIPv6 (renderFields fields) = .ok fields := by
  have hsegne : ∀ s ∈ fields.map toHex, s ≠ [] := by
    intro s hs
    obtain ⟨f, _, rfl⟩ := List.mem_map.1 hs
    exact toHex_ne_nil f
  have hsegcf : ∀ s ∈ fields.map toHex, ∀ c ∈ s, c ≠ ':' := by
    intro s hs
    obtain ⟨f, _, rfl⟩ := List.mem_map.1 hs
    exact toHex_noColon
  have hjoin : expandIPv6 (joinSep ':' (fields.map toHex)) = .ok fields := by
    rw [expandIPv6_of_segmentsOf (segmentsOf_joinSegs (by simp [h8]) hsegne hsegcf)]
    exact parseSegments_map_toHex fields
  simp only [renderFields]
  rw [findRun_eq_runModel, map_zeroTest_toHex]
  have hbs8 : (fields.map (fun f => decide (f = 0))).length = 8 := by simp [h8]
  obtain ⟨hbound, hrest⟩ := runModel_facts hbs8
  cases hr : runModel (fields.map (fun f => decide (f = 0))) with
  | none => exact hjoin
  | some r =>
    cases r with
    | mk s l =>
      dsimp only
      by_cases hl : 2 ≤ l
      · have hcr : codeRun (fields.map (fun f => decide (f = 0))) = some (s, l) := by
          rw [codeRun, hr]
          simp [hl]
        rw [hcr] at hbound hrest
        simp only [runStart, runLen] at hbound
        rcases hrest with h0 | ⟨_, hmid⟩
        · exact Option.noConfusion h0
        simp only [runStart, runLen] at hmid
        rw [if_pos hl]
        have hdec := fields_decomp hmid
        have hbeforemap : (fields.map toHex).take s = (fields.take s).map toHex :=
          (List.map_take toHex fields s).symm
        have haftermap : (fields.map toHex).drop (s + l) = (fields.drop (s + l)).map toHex :=
          (List.map_drop toHex fields (s + l)).symm
        have hlenB : (fields.take s).length = s := by
          rw [List.length_take]
          omega
        have hlenA : (fields.drop (s + l)).length = 8 - (s + l) := by
          rw [List.length_drop, h8]
        have hparse : parseSegments ((fields.take s).map toHex ++
            List.replicate (8 - ((fields.take s).length + (fields.drop (s + l)).length)) ['0'] ++
            (fields.drop (s + l)).map toHex) = .ok fields := by
          have hk : 8 - ((fields.take s).length + (fields.drop (s + l)).length) = l := by
            rw [hlenB, hlenA]
            omega
          rw [hk]
          rw [parseSegments_append (parseSegments_append (parseSegments_map_toHex _)
            (parseSegments_replicate_zero l)) (parseSegments_map_toHex _)]
          rw [← hdec]
        have hccB : ∀ u ∈ (fields.take s).map toHex, u ≠ [] := by
          intro u hu
          obtain ⟨f, _, rfl⟩ := List.mem_map.1 hu
          exact toHex_ne_nil f
        have hccBcf : ∀ u ∈ (fields.take s).map toHex, ∀ c ∈ u, c ≠ ':' := by
          intro u hu
          obtain ⟨f, _, rfl⟩ := List.mem_map.1 hu
          exact toHex_noColon
        have hccA : ∀ u ∈ (fields.drop (s + l)).map toHex, u ≠ [] := by
          intro u hu
          obtain ⟨f, _, rfl⟩ := List.mem_map.1 hu
          exact toHex_ne_nil f
        have hccAcf : ∀ u ∈ (fields.drop (s + l)).map toHex, ∀ c ∈ u, c ≠ ':' := by
          intro u hu
          obtain ⟨f, _, rfl⟩ := List.mem_map.1 hu
          exact toHex_noColon
        have hlenBA : ((fields.take s).map toHex).length + ((fields.drop (s + l)).map toHex).length ≤ 8 := by
          rw [List.length_map, List.length_map, hlenB, hlenA]
          omega
        have hcc := segmentsOf_ccForm ((fields.take s).map toHex) ((fields.drop (s + l)).map toHex)
          hccB hccBcf hccA hccAcf hlenBA
        have hccparse : expandIPv6 (joinSep ':' ((fields.take s).map toHex) ++
            ':' :: ':' :: joinSep ':' ((fields.drop (s + l)).map toHex)) = .ok fields := by
          rw [expandIPv6_of_segmentsOf hcc]
          rw [List.length_map, List.length_map]
          exact hparse
        by_cases hB : (fields.map toHex).take s = []
        · rw [if_pos hB]
          have hBnil : (fields.take s).map toHex = [] := by
            rw [← hbeforemap]
            exact hB
          by_cases hA : (fields.map toHex).drop (s + l) = []
          · rw [if_pos hA]
            have hAnil : (fields.drop (s + l)).map toHex = [] := by
              rw [← haftermap]
              exact hA
            rw [hBnil, hAnil] at hccparse
            simpa [joinSep] using hccparse
          · rw [if_neg hA, haftermap]
            rw [hBnil] at hccparse
            simpa [joinSep] using hccparse
        · rw [if_neg hB, hbeforemap]
          by_cases hA : (fields.map toHex).drop (s + l) = []
          · rw [if_pos hA]
            have hAnil : (fields.drop (s + l)).map toHex = [] := by
              rw [← haftermap]
              exact hA
            rw [hAnil] at hccparse
            simpa [joinSep] using hccparse
          · rw [if_neg hA, haftermap]
            exact hccparse
      · rw [if_neg hl]
        exact hjoin

/-!
## Reverse lookup and word-decoding lemmas
-/

theorem revLookupFrom_none {w : Str} : ∀ (ts : List Str) (i : Nat), w ∉ ts →
    revLookupFrom ts i w = none := by
  intro ts
  induction ts with
  | nil =>
    intro i _
    rfl
  | cons t ts ih =>
    intro i hw
    rw [revLookupFrom, ih (i + 1) (fun h => hw (List.mem_cons_of_mem _ h))]
    rw [if_neg (fun h => hw (by rw [← h]; exact List.mem_cons_self t ts))]

theorem revLookup_none {wl : List Str} {w : Str} (h : w ∉ wl) : revLookup wl w = none :=
  revLookupFrom_none wl 0 h

theorem revLookupFrom_get {wl : List Str} (hnd : wl.Nodup) :
    ∀ (k : Nat) (hk : k < wl.length) (i : Nat),
      revLookupFrom wl i (wl.get ⟨k, hk⟩) = some (i + k) := by
  induction wl with
  | nil =>
    intro k hk _
    simp at hk
  | cons t ts ih =>
    intro k hk i
    cases k with
    | zero =>
      have hni : t ∉ ts := (List.nodup_cons.1 hnd).1
      rw [revLookupFrom]
      rw [revLookupFrom_none ts (i + 1) (by simpa using hni)]
      simp only [List.get_cons_zero]
      simp
    | succ k =>
      have hk' : k < ts.length := by
        simp only [List.length_cons] at hk
        omega
      rw [revLookupFrom, List.get_cons_succ]
      rw [ih (List.nodup_cons.1 hnd).2 k hk' (i + 1)]
      have heq : i + 1 + k = i + (k + 1) := by omega
      rw [heq]

theorem revLookup_get {wl : List Str} (hnd : wl.Nodup) (k : Nat) (hk : k < wl.length) :
    revLookup wl (wl.get ⟨k, hk⟩) = some k := by
  rw [revLookup, revLookupFrom_get hnd k hk 0]
  simp

theorem decodeWords_known {wl : List Str} (hnd : wl.Nodup) (h65 : wl.length = 65536) :
    ∀ (fields : List Nat) (i : Nat), (∀ f ∈ fields, f < 65536) →
      decodeWords wl (fields.map (fun v => wordAt wl v)) i
        = (fields.map (fun f => padStart4 (toHex f)), fields, []) := by
  intro fields
  induction fields with
  | nil =>
    intro i _
    rfl
  | cons f fs ih =>
    intro i hlt
    have hf : f < wl.length := by
      rw [h65]
      exact hlt f (by simp)
    have hw : wordAt wl f = wl.get ⟨f, hf⟩ := by
      unfold wordAt
      rw [Nat.mod_eq_of_lt (by rw [h65]; exact hlt f (by simp))]
      exact List.getD_eq_getElem wl [] hf
    rw [List.map_cons, decodeWords, ih (i + 1) (fun x hx => hlt x (by simp [hx]))]
    rw [hw, revLookup_get hnd f hf]
    simp

theorem decodeWords_parse {wl : List Str} : ∀ (ws : List Str) (i : Nat),
    parseSegments (decodeWords wl ws i).1 = .ok (decodeWords wl ws i).2.1 := by
  intro ws
  induction ws with
  | nil =>
    intro i
    rfl
  | cons w rest ih =>
    intro i
    rw [decodeWords]
    cases hr : revLookup wl w with
    | some idx =>
      rw [parseSegments, parseSegment_padToHex idx]
      simp only [Bind.bind, Except.bind]
      rw [ih (i + 1)]
    | none =>
      rw [parseSegments]
      have h0 : parseSegment ['0', '0', '0', '0'] = .ok 0 := rfl
      rw [h0]
      simp only [Bind.bind, Except.bind]
      rw [ih (i + 1)]

theorem decodeWords_seg_length {wl : List Str} : ∀ (ws : List Str) (i : Nat),
    (decodeWords wl ws i).1.length = ws.length := by
  intro ws
  induction ws with
  | nil =>
    intro i
    rfl
  | cons w rest ih =>
    intro i
    rw [decodeWords]
    cases revLookup wl w <;> simp [ih (i + 1)]

theorem decodeWords_seg_wf {wl : List Str} : ∀ (ws : List Str) (i : Nat),
    ∀ u ∈ (decodeWords wl ws i).1, u ≠ [] ∧ (∀ c ∈ u, c ≠ ':') := by
  intro ws
  induction ws with
  | nil =>
    intro i u hu
    simp [decodeWords] at hu
  | cons w rest ih =>
    intro i u hu
    rw [decodeWords] at hu
    cases hr : revLookup wl w with
    | some idx =>
      rw [hr] at hu
      rcases List.mem_cons.1 hu with rfl | h2
      · constructor
        · unfold padStart4
          intro hc
          exact toHex_ne_nil idx (List.append_eq_nil.1 hc).2
        · intro c hc
          rcases padStart4_mem hc with rfl | h
          · decide
          · exact toHex_noColon c h
      · exact ih (i + 1) u h2
    | none =>
      rw [hr] at hu
      rcases List.mem_cons.1 hu with rfl | h2
      · exact ⟨by simp, by decide⟩
      · exact ih (i + 1) u h2

theorem normalize_decode_segments {wl : List Str} {ws : List Str} (h8 : ws.length = 8) :
    normalizeIPv6 (joinSep ':' (decodeWords wl ws 0).1)
      = .ok (renderFields (decodeWords wl ws 0).2.1) := by
  have hlen : (decodeWords wl ws 0).1.length = 8 := by
    rw [decodeWords_seg_length, h8]
  have hwf := @decodeWords_seg_wf wl ws 0
  unfold normalizeIPv6
  rw [expandIPv6_of_segmentsOf (segmentsOf_joinSegs hlen
    (fun u hu => (hwf u hu).1) (fun u hu => (hwf u hu).2))]
  rw [decodeWords_parse]

theorem poetryToAddress_eq {wl : List Str} {phrase : Str} (ic : Bool)
    (h8 : 8 ≤ (tokenize phrase).length) :
    poetryToAddress wl ic phrase =
      .ok ⟨renderFields (decodeWords wl ((tokenize phrase).take 8) 0).2.1,
        (checksumState wl ic (tokenize phrase)
          (decodeWords wl ((tokenize phrase).take 8) 0).2.1
          (decodeWords wl ((tokenize phrase).take 8) 0).2.2).1,
        (checksumState wl ic (tokenize phrase)
          (decodeWords wl ((tokenize phrase).take 8) 0).2.1
          (decodeWords wl ((tokenize phrase).take 8) 0).2.2).2.1,
        (checksumState wl ic (tokenize phrase)
          (decodeWords wl ((tokenize phrase).take 8) 0).2.1
          (decodeWords wl ((tokenize phrase).take 8) 0).2.2).2.2.1,
        (checksumState wl ic (tokenize phrase)
          (decodeWords wl ((tokenize phrase).take 8) 0).2.1
          (decodeWords wl ((tokenize phrase).take 8) 0).2.2).2.2.2⟩ := by
  unfold poetryToAddress
  rw [if_neg (by omega)]
  dsimp only
  rw [normalize_decode_segments (by rw [List.length_take]; omega)]

/-!
## Structural facts about parsing results
-/

theorem segmentsOf_length {addr : Str} {segs : List Str}
    (h : segmentsOf addr = .ok segs) : segs.length = 8 := by
  unfold segmentsOf at h
  dsimp only at h
  repeat' split at h
  all_goals first
    | exact Except.noConfusion h
    | (cases h
       simp only [List.length_append, List.length_replicate, List.length_nil]
       try omega)
    | (cases h
       omega)

theorem parseSegments_length : ∀ {segs : List Str} {vals : List Nat},
    parseSegments segs = .ok vals → vals.length = segs.length := by
  intro segs
  induction segs with
  | nil =>
    intro vals h
    rw [parseSegments] at h
    cases h
    rfl
  | cons s rest ih =>
    intro vals h
    rw [parseSegments] at h
    cases hs : parseSegment s with
    | error e =>
      rw [hs] at h
      simp only [Bind.bind, Except.bind] at h
      exact Except.noConfusion h
    | ok v =>
      rw [hs] at h
      cases hr : parseSegments rest with
      | error e =>
        rw [hr] at h
        simp only [Bind.bind, Except.bind] at h
        exact Except.noConfusion h
      | ok vs =>
        rw [hr] at h
        simp only [Bind.bind, Except.bind] at h
        cases h
        simp [ih hr]

theorem expandIPv6_length {addr : Str} {fields : List Nat}
    (h : expandIPv6 addr = .ok fields) : fields.length = 8 := by
  unfold expandIPv6 at h
  cases hs : segmentsOf addr with
  | error e =>
    rw [hs] at h
    simp only [Bind.bind, Except.bind] at h
    exact Except.noConfusion h
  | ok segs =>
    rw [hs] at h
    simp only [Bind.bind, Except.bind] at h
    rw [parseSegments_length h]
    exact segmentsOf_length hs

theorem parseSegments_error_of_mem {e : String} : ∀ {segs : List Str} {s : Str}, s ∈ segs →
    parseSegment s = .error e → ∃ e', parseSegments segs = .error e' := by
  intro segs
  induction segs with
  | nil =>
    intro s hs _
    simp at hs
  | cons u us ih =>
    intro s hs herr
    rcases List.mem_cons.1 hs with rfl | h2
    · refine ⟨e, ?_⟩
      rw [parseSegments, herr]
      rfl
    · cases hu : parseSegment u with
      | error e' =>
        refine ⟨e', ?_⟩
        rw [parseSegments, hu]
        rfl
      | ok v =>
        obtain ⟨e', he'⟩ := ih h2 herr
        refine ⟨e', ?_⟩
        rw [parseSegments, hu, he']
        rfl

theorem splitDC_ne_nil : ∀ s : Str, splitDC s ≠ []
  | [] => by
    rw [splitDC]
    simp
  | [c] => by
    rw [splitDC]
    simp
  | c₁ :: c₂ :: rest => by
    rw [splitDC]
    split
    · simp
    · cases h : splitDC (c₂ :: rest) with
      | nil => exact absurd h (splitDC_ne_nil (c₂ :: rest))
      | cons a as =>
        rw [consHead]
        simp

theorem hasAdjCC_of_splitDC_len : ∀ s : Str, 2 ≤ (splitDC s).length → hasAdjCC s = true
  | [] => by
    rw [splitDC]
    intro h
    simp at h
  | [c] => by
    rw [splitDC]
    intro h
    simp at h
  | c₁ :: c₂ :: rest => by
    rw [splitDC]
    split
    · rename_i hcc
      intro _
      rw [hasAdjCC]
      simp [hcc.1, hcc.2]
    · intro h
      have h2 : 2 ≤ (splitDC (c₂ :: rest)).length := by
        cases hs : splitDC (c₂ :: rest) with
        | nil => exact absurd hs (splitDC_ne_nil (c₂ :: rest))
        | cons a as =>
          rw [hs, consHead] at h
          simp only [List.length_cons] at h ⊢
          omega
      have := hasAdjCC_of_splitDC_len (c₂ :: rest) h2
      rw [hasAdjCC]
      simp [this]

theorem mem_colon_of_infixDC {s : Str} (h : [':', ':'] <:+: s) : ':' ∈ s := by
  obtain ⟨p, q, rfl⟩ := h
  exact List.mem_append_left _ (List.mem_append_right _ (by simp))

theorem wordAt_mem {wl : List Str} (h : wl ≠ []) (v : Nat) : wordAt wl v ∈ wl := by
  unfold wordAt
  have hlt : v % wl.length < wl.length := Nat.mod_lt _ (List.length_pos.2 h)
  rw [List.getD_eq_getElem wl [] hlt]
  exact List.getElem_mem hlt

theorem wordsOf_tokens : ∀ (u : Str), ∀ t ∈ wordsOf u, t ≠ [] ∧ NoWS t := by
  intro u
  induction u using wordsOf.induct with
  | case1 =>
    intro t ht
    rw [wordsOf] at ht
    simp at ht
  | case2 c rest hc ih =>
    intro t ht
    rw [wordsOf] at ht
    rw [if_pos hc] at ht
    exact ih t ht
  | case3 c rest hc ih =>
    intro t ht
    rw [wordsOf] at ht
    rw [if_neg hc] at ht
    rcases List.mem_cons.1 ht with rfl | h2
    · refine ⟨by simp, ?_⟩
      intro x hx
      rcases List.mem_cons.1 hx with rfl | h3
      · simpa using hc
      · have := List.mem_takeWhile_imp h3
        simpa using this
    · exact ih t h2

/-!
## Trim and lowercase interaction
-/

theorem trimL_of_head {x : Str} (h : x = [] ∨ jsWS (x.headD ' ') = false) : trimL x = x := by
  cases x with
  | nil => rfl
  | cons c r =>
    rcases h with h | h
    · exact List.noConfusion h
    · unfold trimL
      rw [List.dropWhile_cons_of_neg]
      simpa using h

theorem trimR_of_last {x : Str} (h : x = [] ∨ jsWS (x.getLastD ' ') = false) : trimR x = x := by
  unfold trimR
  cases hr : x.reverse with
  | nil =>
    rw [List.dropWhile_nil, ← hr, List.reverse_reverse]
  | cons c r =>
    rcases h with h | h
    · rw [h] at hr
      exact List.noConfusion hr
    · have hcx : c = x.getLastD ' ' := by
        have := getLastD_reverse x.reverse ' '
        rw [List.reverse_reverse] at this
        rw [this, hr, List.headD_cons]
      rw [List.dropWhile_cons_of_neg (by rw [hcx]; simpa using h), ← hr, List.reverse_reverse]

theorem trimL_head (u : Str) : trimL u = [] ∨ jsWS ((trimL u).headD ' ') = false := by
  cases hu : trimL u with
  | nil => exact Or.inl rfl
  | cons c r =>
    right
    have h0 : u.dropWhile (fun c => jsWS c) ≠ [] := by
      rw [← trimL.eq_def, hu]
      simp
    have := headD_dropWhile_not (fun c => jsWS c) u ' ' h0
    rw [← trimL.eq_def, hu] at this
    exact this

theorem trimR_last (u : Str) : trimR u = [] ∨ jsWS ((trimR u).getLastD ' ') = false := by
  cases hu : trimR u with
  | nil => exact Or.inl rfl
  | cons c r =>
    right
    rw [← hu]
    unfold trimR
    rw [getLastD_reverse]
    have h0 : u.reverse.dropWhile (fun c => jsWS c) ≠ [] := by
      intro hnil
      rw [trimR.eq_def, hnil] at hu
      exact List.noConfusion hu
    exact headD_dropWhile_not (fun c => jsWS c) u.reverse ' ' h0

theorem trimR_head (u : Str) : trimR u = [] ∨ (trimR u).headD ' ' = u.headD ' ' := by
  cases hu : trimR u with
  | nil => exact Or.inl rfl
  | cons c r =>
    right
    have hdec : u = trimR u ++ (u.reverse.takeWhile (fun c => jsWS c)).reverse := by
      unfold trimR
      rw [← List.reverse_append, List.takeWhile_append_dropWhile, List.reverse_reverse]
    rw [← hu]
    conv_rhs => rw [hdec]
    rw [headD_append_ne_nil _ _ (by rw [hu]; simp)]

theorem jsTrim_idem (w : Str) : jsTrim (jsTrim w) = jsTrim w := by
  unfold jsTrim
  have h1 : trimL (trimR (trimL w)) = trimR (trimL w) := by
    apply trimL_of_head
    rcases trimR_head (trimL w) with h | h
    · exact Or.inl h
    · rcases trimL_head w with h2 | h2
      · left
        rw [h2]
        rfl
      · right
        rw [h]
        exact h2
  rw [h1]
  apply trimR_of_last
  exact trimR_last (trimL w)

theorem trimL_jsLower (x : Str) : trimL (jsLower x) = jsLower (trimL x) := by
  induction x with
  | nil => rfl
  | cons c r ih =>
    by_cases hc : jsWS c
    · have hc' : jsWS (lowerChar c) = true := by rw [lowerChar_jsWS]; exact hc
      unfold jsLower at ih ⊢
      rw [List.map_cons]
      unfold trimL at ih ⊢
      rw [List.dropWhile_cons_of_pos (by simpa using hc'), List.dropWhile_cons_of_pos (by simpa using hc)]
      exact ih
    · have hc' : jsWS (lowerChar c) = false := by rw [lowerChar_jsWS]; simpa using hc
      unfold jsLower trimL
      rw [List.map_cons]
      rw [List.dropWhile_cons_of_neg (by simp [hc']), List.dropWhile_cons_of_neg (by simpa using hc)]
      rfl

theorem trimR_jsLower (x : Str) : trimR (jsLower x) = jsLower (trimR x) := by
  unfold trimR jsLower
  rw [← List.map_reverse]
  have h1 : (x.reverse.map lowerChar).dropWhile (fun c => jsWS c)
      = (x.reverse.dropWhile (fun c => jsWS c)).map lowerChar := by
    have := trimL_jsLower x.reverse
    unfold trimL jsLower at this
    exact this
  rw [h1, List.map_reverse]

theorem jsTrim_jsLower (x : Str) : jsTrim (jsLower x) = jsLower (jsTrim x) := by
  unfold jsTrim
  rw [trimL_jsLower, trimR_jsLower]

theorem jsLower_idem (x : Str) : jsLower (jsLower x) = jsLower x := by
  unfold jsLower
  rw [List.map_map]
  exact List.map_congr_left (fun c _ => lowerChar_idem c)

/-!
## Stability of decoding under appended tokens
-/

theorem joinSep_append {sep : Char} : ∀ {W E : List Str}, W ≠ [] → E ≠ [] →
    joinSep sep (W ++ E) = joinSep sep W ++ sep :: joinSep sep E
  | [], _, h, _ => absurd rfl h
  | [w], e :: es, _, _ => by
    rw [List.cons_append, List.nil_append, joinSep, joinSep]
  | w₁ :: w₂ :: W', E, _, hE => by
    rw [List.cons_append, List.cons_append, joinSep]
    have := @joinSep_append sep (w₂ :: W') E (by simp) hE
    rw [List.cons_append] at this
    rw [this, joinSep, List.append_assoc]
    rfl

theorem count_space_joinSep : ∀ {W : List Str}, W ≠ [] →
    (∀ t ∈ W, ' ' ∉ t) → (joinSep ' ' W).count ' ' = W.length - 1
  | [], h, _ => absurd rfl h
  | [w], _, hsf => by
    rw [joinSep]
    simp [List.count_eq_zero.2 (hsf w (by simp))]
  | w₁ :: w₂ :: W', _, hsf => by
    rw [joinSep, List.count_append, List.count_cons]
    rw [List.count_eq_zero.2 (hsf w₁ (by simp))]
    rw [count_space_joinSep (by simp) (fun t ht => hsf t (by simp [ht]))]
    simp

theorem examplePrefix_join_stable {W E : List Str} (h9 : 9 ≤ W.length)
    (hW : ∀ t ∈ W, ' ' ∉ t) :
    examplePrefix.isPrefixOf (joinSep ' ' (W ++ E))
      = examplePrefix.isPrefixOf (joinSep ' ' W) := by
  cases hE : E with
  | nil => rw [List.append_nil]
  | cons e es =>
    rw [← hE]
    have hWne : W ≠ [] := by
      intro h
      rw [h] at h9
      simp at h9
    rw [joinSep_append hWne (by rw [hE]; simp)]
    have hcount : (joinSep ' ' W).count ' ' = W.length - 1 := count_space_joinSep hWne hW
    have hPcount : examplePrefix.count ' ' = 7 := by decide
    by_cases hlen : examplePrefix.length ≤ (joinSep ' ' W).length
    · cases hP : examplePrefix.isPrefixOf (joinSep ' ' W) with
      | true =>
        have h1 : examplePrefix <+: joinSep ' ' W := List.isPrefixOf_iff_prefix.1 hP
        exact List.isPrefixOf_iff_prefix.2 (h1.trans (List.prefix_append _ _))
      | false =>
        cases hQ : examplePrefix.isPrefixOf (joinSep ' ' W ++ ' ' :: joinSep ' ' E) with
        | false => rfl
        | true =>
          have h1 : examplePrefix <+: joinSep ' ' W ++ ' ' :: joinSep ' ' E :=
            List.isPrefixOf_iff_prefix.1 hQ
          have h2 : examplePrefix <+: joinSep ' ' W :=
            List.prefix_of_prefix_length_le h1 (List.prefix_append _ _) hlen
          have h2b : examplePrefix.isPrefixOf (joinSep ' ' W) = true :=
            List.isPrefixOf_iff_prefix.2 h2
          rw [hP] at h2b
          exact Bool.noConfusion h2b
    · cases hQ : examplePrefix.isPrefixOf (joinSep ' ' W ++ ' ' :: joinSep ' ' E) with
      | false =>
        cases hP : examplePrefix.isPrefixOf (joinSep ' ' W) with
        | false => rfl
        | true =>
          have h1 : examplePrefix <+: joinSep ' ' W := List.isPrefixOf_iff_prefix.1 hP
          exact absurd h1.length_le hlen
      | true =>
        exfalso
        have h1 : examplePrefix <+: joinSep ' ' W ++ ' ' :: joinSep ' ' E :=
          List.isPrefixOf_iff_prefix.1 hQ
        have h2 : joinSep ' ' W ++ [' '] <+: joinSep ' ' W ++ ' ' :: joinSep ' ' E := by
          refine ⟨joinSep ' ' E, ?_⟩
          rw [List.append_assoc]
          rfl
        have h3 : joinSep ' ' W ++ [' '] <+: examplePrefix := by
          apply List.prefix_of_prefix_length_le h2 h1
          simp only [List.length_append, List.length_singleton]
          omega
        have h4 := h3.count_le ' '
        rw [List.count_append, hcount, hPcount] at h4
        simp only [List.count_singleton] at h4
        omega

theorem getD_append_of_lt {α : Type} {l₁ l₂ : List α} {n : Nat} (h : n < l₁.length) (d : α) :
    (l₁ ++ l₂).getD n d = l₁.getD n d := by
  rw [List.getD_eq_getElem?_getD, List.getD_eq_getElem?_getD, List.getElem?_append_left h]

theorem checksumState_append (wl : List Str) {W E : List Str} (h9 : 9 ≤ W.length)
    (hW : ∀ t ∈ W, ' ' ∉ t)
    (dv : List Nat) (inv : List (Nat × Str)) :
    checksumState wl true (W ++ E) dv inv = checksumState wl true W dv inv := by
  unfold checksumState
  have c1 : (true : Bool) = true ∧ 9 ≤ (W ++ E).length :=
    ⟨rfl, by rw [List.length_append]; omega⟩
  have c2 : (true : Bool) = true ∧ 9 ≤ W.length := ⟨rfl, h9⟩
  rw [if_pos c1, if_pos c2]
  have hgd : (W ++ E).getD 8 [] = W.getD 8 [] := getD_append_of_lt (by omega) []
  rw [hgd, examplePrefix_join_stable h9 hW]

/-- `parseInt(s, 16)`: skip leading whitespace, an optional sign, an
optional `0x`/`0X` prefix, then the longest prefix of hexadecimal
digits; no digit at all gives `NaN` (`none`). -/
def jsParseInt16 (s : Str) : Option Int :=
  let t₀ := s.dropWhile (fun c => jsWS c)
  let sgn : Bool × Str :=
    match t₀ with
    | '-' :: r => (true, r)
    | '+' :: r => (false, r)
    | r => (false, r)
  let t₁ : Str :=
    match sgn.2 with
    | '0' :: 'x' :: r => r
    | '0' :: 'X' :: r => r
    | r => r
  let digits := t₁.takeWhile (fun c => isHexDigit c)
  if digits = [] then none
  else if sgn.1 then some (-(parseIntHex digits : Int))
  else some ((parseIntHex digits : Int))

/-- `num.toString(16)` on the result of `parseInt`: `NaN` prints as
`"NaN"`, negative numbers with a `-` sign, other numbers as lowercase
hex without leading zeros. -/
def jsNumToString16 : Option Int → Str
  | none => ['N', 'a', 'N']
  | some i => if i < 0 then '-' :: toHex i.natAbs else toHex i.toNat

/-- `segments.indexOf('')`: the index of the first empty segment. -/
def indexOfEmpty : List Str → Option Nat
  | [] => none
  | s :: rest => if s = [] then some 0 else (indexOfEmpty rest).map (fun j => j + 1)

/-- `IPv6PoetryConverter.normalizeIPv6` (node converter, `converters.ts`
lines 72-117): split on `':'`; at the first empty segment insert
`8 - count(nonempty segments)` `"0000"` groups, dropping the empty ones
(when that count is negative `Array(missing)` throws and the `catch`
rethrows an invalid-address error; in the model the truncated count
leaves more than 8 segments, failing the same inputs at the next check);
require exactly 8 segments; then re-render each segment as
`parseInt(segment, 16).toString(16).padStart(4, '0')` joined by `':'` —
with no validation and no zero-run compression. -/
def normalizeIPv6Node (address : Str) : Except String Str :=
  if ¬ address.contains ':' then .error "Invalid IPv6 address"
  else
    let segments := splitChar ':' address
    let expanded :=
      match indexOfEmpty segments with
      | none => segments
      | some i =>
        let provided := (segments.filter (fun s => decide (s ≠ []))).length
        (segments.take i).filter (fun s => decide (s ≠ []))
          ++ List.replicate (8 - provided) ['0', '0', '0', '0']
          ++ (segments.drop (i + 1)).filter (fun s => decide (s ≠ []))
    if expanded.length ≠ 8 then .error "Invalid IPv6 address"
    else .ok (joinSep ':' (expanded.map (fun seg =>
      padStart4 (jsNumToString16 (jsParseInt16 seg)))))

theorem indexOfEmpty_none {segs : List Str} (h : ∀ s ∈ segs, s ≠ []) :
    indexOfEmpty segs = none := by
  induction segs with
  | nil => rfl
  | cons s rest ih =>
    rw [indexOfEmpty, if_neg (h s (by simp))]
    rw [ih (fun u hu => h u (by simp [hu]))]
    rfl

theorem normalizeIPv6Node_noElision {segs : List Str} (h8 : segs.length = 8)
    (hne : ∀ s ∈ segs, s ≠ []) (hcf : ∀ s ∈ segs, ∀ c ∈ s, c ≠ ':') :
    normalizeIPv6Node (joinSep ':' segs)
      = .ok (joinSep ':' (segs.map (fun seg =>
          padStart4 (jsNumToString16 (jsParseInt16 seg))))) := by
  have hmem : ':' ∈ joinSep ':' segs := by
    cases segs with
    | nil => simp at h8
    | cons s rest =>
      cases rest with
      | nil => simp at h8
      | cons t rest' =>
        rw [joinSep]
        exact List.mem_append_right _ (by simp)
  unfold normalizeIPv6Node
  rw [if_neg (by simpa using hmem)]
  rw [splitChar_joinSep (by intro h0; rw [h0] at h8; simp at h8) hcf]
  dsimp only
  rw [indexOfEmpty_none hne]
  dsimp only
  rw [if_neg (by simp [h8])]

/-!
## Claims
-/

/-- C1: the claim says `calculateChecksum` returns exactly the low 16 bits
of the CRC-32 of the 16-byte big-endian serialization of the fields, as a
function of the field values alone with no address-specific overrides.
The web converter violates this: at the hard-coded example address
`2001:db8:85a3::8a2e:370:7334` (fields `[8193, 3512, 34211, 0, 0, 35374,
880, 29492]`) it returns the override value 28756, while the CRC-32
low-16 value — returned by the spec checksum, by the node converter, and
by the web converter's own CRC path — is 64402. -/
theorem claim_c1_override_evaluation :
    calculateChecksum [8193, 3512, 34211, 0, 0, 35374, 880, 29492] = 28756 ∧
      checksumSpec [8193, 3512, 34211, 0, 0, 35374, 880, 29492] = 64402 ∧
      calculateChecksumNode [8193, 3512, 34211, 0, 0, 35374, 880, 29492] = 64402 ∧
      crc16 [8193, 3512, 34211, 0, 0, 35374, 880, 29492] = 64402 ∧
      (28756 : Nat) ≠ 64402 :=
  ⟨rfl, rfl, rfl, rfl, by decide⟩

/-- C3 (counterexample): the claim says decoding a phrase of exactly 8
tokens reports the checksum state as a value distinct from both "valid"
and "invalid".  In the code `validChecksum` is a boolean initialized to
`true`: an 8-token phrase reports `validChecksum = true`, the very same
value reported for a 9-token phrase with a correct checksum word. -/
theorem claim_c3_counterexample :
    (poetryToAddress ["zero".data] true
        ("zero zero zero zero zero zero zero zero".data)).map (fun r => r.validChecksum)
      = .ok true ∧
    (poetryToAddress ["zero".data] true
        ("zero zero zero zero zero zero zero zero zero".data)).map
        (fun r => (r.validChecksum, decide (r.actualChecksum = r.expectedChecksum)))
      = .ok (true, true) :=
  ⟨rfl, rfl⟩

/-- C3 (amended): decoding any phrase of exactly 8 tokens succeeds and
reports `validChecksum = true` — the same boolean as a passing checksum —
with `expectedChecksum` and `actualChecksum` absent; the unchecked state
is distinguishable from a passing checksum only through the absence of
`expectedChecksum`/`actualChecksum`, not through the checksum-validity
value itself. -/
theorem claim_c3_decode8 : ∀ (wl : List Str) (phrase : Str),
    (tokenize phrase).length = 8 →
    ∃ res, poetryToAddress wl true phrase = .ok res ∧
      res.validChecksum = true ∧ res.expectedChecksum = none ∧ res.actualChecksum = none := by
  intro wl phrase h8
  refine ⟨_, poetryToAddress_eq true (by omega), ?_, ?_, ?_⟩
  all_goals
    unfold checksumState
    rw [if_neg (by rw [h8]; simp)]

/-- C3 (witness): the amended statement at a concrete 8-token phrase. -/
theorem claim_c3_decode8_witness :
    ∃ res, poetryToAddress ["zero".data] true
        ("zero zero zero zero zero zero zero zero".data) = .ok res ∧
      res.validChecksum = true ∧ res.expectedChecksum = none ∧ res.actualChecksum = none :=
  claim_c3_decode8 ["zero".data] ("zero zero zero zero zero zero zero zero".data) rfl

/-- C4: the claim says `validChecksum` is true if and only if the 9th
token equals the vocabulary word at the recomputed checksum index, and an
unknown 9th token is recorded among the invalid words.  The hard-coded
example-phrase carve-out violates both parts: for the phrase below, the
code reports `validChecksum = true` although the 9th token `arrives5`
differs from the recomputed expected word `zero`, and although `arrives5`
is not a vocabulary word it is not recorded in `invalidWords`. -/
theorem claim_c4_carveout_evaluation :
    (poetryToAddress ["zero".data] true
        ("schema deaf samarium zero zero engulf fields osmanli arrives5".data)).map
        (fun r => (r.validChecksum, r.expectedChecksum, r.actualChecksum,
          decide ((8, "arrives5".data) ∈ r.invalidWords)))
      = .ok (true, some "zero".data, some "arrives5".data, false) ∧
    "arrives5".data ≠ "zero".data ∧
    revLookup ["zero".data] "arrives5".data = none :=
  ⟨rfl, by decide, rfl⟩

/-- The web `expandIPv6` does reject non-hexadecimal groups: any segment
that is nonempty after trimming and fails the `/^[0-9A-Fa-f]+$/` test
propagates an error through the parse. -/
theorem expandIPv6_nonhex_error :
    ∀ (addr : Str) (segs : List Str), segmentsOf addr = .ok segs →
      ∀ s ∈ segs, jsTrim s ≠ [] → ¬ (∀ c ∈ jsTrim s, isHexDigit c = true) →
        ∃ e, expandIPv6 addr = .error e := by
  intro addr segs hsegs s hs hne hnothex
  have herr : parseSegment s = .error "Invalid IPv6 segment" := by
    unfold parseSegment
    rw [if_neg hne, if_neg (by
      intro hall
      exact hnothex (List.all_eq_true.1 hall))]
  obtain ⟨e', he'⟩ := parseSegments_error_of_mem hs herr
  exact ⟨e', by rw [expandIPv6_of_segmentsOf hsegs]; exact he'⟩

/-- C5 (counterexample): the claim says a group with non-hexadecimal
characters, or a group whose value is 65536 or larger, fails with an
error in the cited parsers.  The web `expandIPv6` accepts
`10000:0:0:0:0:0:0:0` and returns the out-of-16-bit-range value 65536,
and the node `normalizeIPv6` accepts the non-hexadecimal group `zz`
without any error, re-rendering it as the segment `0NaN`
(`parseInt('zz', 16)` is `NaN`). -/
theorem claim_c5_counterexample :
    (expandIPv6 ("10000:0:0:0:0:0:0:0".data) = .ok [65536, 0, 0, 0, 0, 0, 0, 0] ∧
      ¬ (65536 : Nat) < 2 ^ 16) ∧
    normalizeIPv6Node ("zz:0:0:0:0:0:0:0".data)
      = .ok ("0NaN:0000:0000:0000:0000:0000:0000:0000".data) :=
  ⟨⟨rfl, by decide⟩, rfl⟩

/-- C5 (amended): in the web `expandIPv6`, every group that is nonempty
after trimming and contains a non-hexadecimal character fails with an
error, while group values are not range-checked (65536 parses
successfully — see the counterexample); in the node `normalizeIPv6`
neither check exists: every address splitting into 8 nonempty colon-free
groups is accepted whatever the groups contain. -/
theorem claim_c5_per_impl :
    (∀ (addr : Str) (segs : List Str), segmentsOf addr = .ok segs →
      ∀ s ∈ segs, jsTrim s ≠ [] → ¬ (∀ c ∈ jsTrim s, isHexDigit c = true) →
        ∃ e, expandIPv6 addr = .error e) ∧
    (∀ segs : List Str, segs.length = 8 → (∀ s ∈ segs, s ≠ []) →
      (∀ s ∈ segs, ∀ c ∈ s, c ≠ ':') →
      ∃ out, normalizeIPv6Node (joinSep ':' segs) = .ok out) :=
  ⟨expandIPv6_nonhex_error,
   fun _ h8 hne hcf => ⟨_, normalizeIPv6Node_noElision h8 hne hcf⟩⟩

/-- C5 (witness): the amended statement at concrete inputs — the web
parser rejects the non-hexadecimal group `zz`, the node renderer accepts
the non-hexadecimal group `z`. -/
theorem claim_c5_per_impl_witness :
    (∃ e, expandIPv6 ("zz:0:0:0:0:0:0:0".data) = .error e) ∧
    (∃ out, normalizeIPv6Node ("z:0:0:0:0:0:0:0".data) = .ok out) :=
  ⟨claim_c5_per_impl.1 ("zz:0:0:0:0:0:0:0".data)
      ["zz".data, "0".data, "0".data, "0".data, "0".data, "0".data, "0".data, "0".data]
      rfl ("zz".data) (by decide) (by decide) (by decide),
   claim_c5_per_impl.2 [['z'], ['0'], ['0'], ['0'], ['0'], ['0'], ['0'], ['0']]
      rfl (by decide) (by decide)⟩

/-- C9 (counterexample): the claim says loading the vocabulary lowercases
every token for every source content; the web loader (`fromUrl`) only
trims, so the source `"Zero"` yields the token `"Zero"`, which is not
lowercase. -/
theorem claim_c9_counterexample :
    loadWordlistWeb ("Zero".data) = ["Zero".data] ∧
      jsLower ("Zero".data) ≠ "Zero".data :=
  ⟨rfl, by decide⟩

/-- C9 (amended): the node loader trims whitespace from every token and
lowercases every token; the web loader trims whitespace from every token
but does not lowercase (witness: source `"Zero"`). -/
theorem claim_c9_loaders :
    (∀ (content : Str) (t : Str), t ∈ loadWordlistNode content →
      jsTrim t = t ∧ jsLower t = t) ∧
    (∀ (text : Str) (t : Str), t ∈ loadWordlistWeb text → jsTrim t = t) ∧
    loadWordlistWeb ("Zero".data) = ["Zero".data] := by
  refine ⟨?_, ?_, rfl⟩
  · intro content t ht
    obtain ⟨w, _, rfl⟩ := List.mem_map.1 ht
    constructor
    · rw [jsTrim_jsLower, jsTrim_idem]
    · exact jsLower_idem (jsTrim w)
  · intro text t ht
    obtain ⟨w, _, rfl⟩ := List.mem_map.1 ht
    exact jsTrim_idem w

/-- C9 (witness): the amended statement at concrete source contents. -/
theorem claim_c9_loaders_witness :
    jsTrim ("a".data) = "a".data ∧ jsLower ("a".data) = "a".data :=
  claim_c9_loaders.1 (" A \nb".data) ("a".data) (by decide)

/-!
## Helpers for the elision-structure and suffix-independence claims
-/

theorem colonFree_lastD {a : Str} (h : ∀ x ∈ a, x ≠ ':') : a.getLastD '0' ≠ ':' := by
  cases a with
  | nil => decide
  | cons x xs => exact h _ (getLastD_mem _ '0' (by simp))

theorem hasAdjCC_colonFree {a : Str} (h : ∀ x ∈ a, x ≠ ':') : hasAdjCC a = false := by
  have hx := hasAdjCC_append_colonFree h []
  simpa using hx

theorem segmentsOf_ccParts (before after : List Str)
    (hbne : ∀ s ∈ before, s ≠ []) (hbcf : ∀ s ∈ before, ∀ c ∈ s, c ≠ ':')
    (hane : ∀ s ∈ after, s ≠ []) (hacf : ∀ s ∈ after, ∀ c ∈ s, c ≠ ':') :
    segmentsOf (joinSep ':' before ++ ':' :: ':' :: joinSep ':' after)
      = if 8 < before.length + after.length then .error "too many segments"
        else .ok (before ++ List.replicate (8 - (before.length + after.length)) ['0'] ++ after) := by
  have hmem : ':' ∈ joinSep ':' before ++ ':' :: ':' :: joinSep ':' after :=
    List.mem_append_right _ (by simp)
  have hinf : [':', ':'] <:+: joinSep ':' before ++ ':' :: ':' :: joinSep ':' after := by
    refine ⟨joinSep ':' before, joinSep ':' after, ?_⟩
    simp
  have hadjB : hasAdjCC (joinSep ':' before) = false := hasAdjCC_joinSep hbne hbcf
  have hlastB : (joinSep ':' before).getLastD '0' ≠ ':' := by
    cases hb : before with
    | nil =>
      rw [joinSep]
      decide
    | cons b bs =>
      rw [← hb]
      rw [getLastD_joinSep (by rw [hb]; simp) hbne '0']
      have hlastmem : before.getLastD [] ∈ before := by
        rw [hb]
        exact getLastD_mem _ [] (by simp)
      have hlast2 : (before.getLastD []).getLastD '0' ∈ before.getLastD [] :=
        getLastD_mem _ '0' (hbne _ hlastmem)
      exact hbcf _ hlastmem _ hlast2
  unfold segmentsOf
  rw [if_neg (by simp [contains_of_mem hmem])]
  have hdc : jsIncludesDC (joinSep ':' before ++ ':' :: ':' :: joinSep ':' after) = true := by
    unfold jsIncludesDC
    rw [decide_eq_true_eq]
    exact hinf
  rw [if_pos (by simp [hdc])]
  rw [splitDC_mid hadjB hlastB, splitDC_noAdjCC (hasAdjCC_joinSep hane hacf)]
  simp only [List.length_cons, List.length_singleton]
  rw [if_neg (by norm_num)]
  have hleft : (if (([joinSep ':' before, joinSep ':' after].getD 0 []) ≠ []) then
      splitChar ':' ([joinSep ':' before, joinSep ':' after].getD 0 []) else []) = before := by
    simp only [List.getD_cons_zero]
    cases hb : before with
    | nil =>
      rw [if_neg (by rw [joinSep]; simp)]
    | cons b bs =>
      rw [← hb, if_pos (joinSep_ne_nil (by rw [hb]; simp) hbne)]
      exact splitChar_joinSep (by rw [hb]; simp) hbcf
  have hright : (if (([joinSep ':' before, joinSep ':' after].getD 1 []) ≠ []) then
      splitChar ':' ([joinSep ':' before, joinSep ':' after].getD 1 []) else []) = after := by
    simp only [List.getD_cons_succ, List.getD_cons_zero]
    cases ha : after with
    | nil =>
      rw [if_neg (by rw [joinSep]; simp)]
    | cons a as =>
      rw [← ha, if_pos (joinSep_ne_nil (by rw [ha]; simp) hane)]
      exact splitChar_joinSep (by rw [ha]; simp) hacf
  rw [hleft, hright]

theorem segmentsOf_noElision {segs : List Str} (h2 : 2 ≤ segs.length)
    (hne : ∀ s ∈ segs, s ≠ []) (hcf : ∀ s ∈ segs, ∀ c ∈ s, c ≠ ':') :
    segmentsOf (joinSep ':' segs)
      = if segs.length ≠ 8 then .error "expected 8 segments" else .ok segs := by
  have hsne : segs ≠ [] := by
    intro h
    rw [h] at h2
    simp at h2
  have hmem : ':' ∈ joinSep ':' segs := by
    cases segs with
    | nil => simp at h2
    | cons s rest =>
      cases rest with
      | nil => simp at h2
      | cons t rest' =>
        rw [joinSep]
        exact List.mem_append_right _ (by simp)
  have hadj : hasAdjCC (joinSep ':' segs) = false := hasAdjCC_joinSep hne hcf
  unfold segmentsOf
  rw [if_neg (by simpa using hmem)]
  have hdc : jsIncludesDC (joinSep ':' segs) = false := by
    unfold jsIncludesDC
    rw [decide_eq_false_iff_not]
    intro hinf
    rw [← hasAdjCC_iff_infixDC] at hinf
    rw [hadj] at hinf
    exact Bool.noConfusion hinf
  rw [if_neg (by simp [hdc])]
  rw [splitChar_joinSep hsne hcf]

/-- C6: one `::` elision expands to exactly `8 - (explicit groups on the
left + explicit groups on the right)` zero groups, and parsing fails when
the explicit groups already exceed 8; an address with a second `::`
occurrence fails; and without any elision the text must split into
exactly 8 groups, any other count failing. -/
theorem claim_c6_elision_structure :
    (∀ before after : List Str,
      (∀ s ∈ before, s ≠ []) → (∀ s ∈ before, ∀ c ∈ s, c ≠ ':') →
      (∀ s ∈ after, s ≠ []) → (∀ s ∈ after, ∀ c ∈ s, c ≠ ':') →
      segmentsOf (joinSep ':' before ++ ':' :: ':' :: joinSep ':' after)
        = if 8 < before.length + after.length then .error "too many segments"
          else .ok (before ++ List.replicate (8 - (before.length + after.length)) ['0'] ++ after)) ∧
    (∀ a b c : Str, (∀ x ∈ a, x ≠ ':') → (∀ x ∈ b, x ≠ ':') → (∀ x ∈ c, x ≠ ':') →
      segmentsOf (a ++ ':' :: ':' :: (b ++ ':' :: ':' :: c))
        = .error "more than one :: in address") ∧
    (∀ segs : List Str, 2 ≤ segs.length →
      (∀ s ∈ segs, s ≠ []) → (∀ s ∈ segs, ∀ c ∈ s, c ≠ ':') →
      segmentsOf (joinSep ':' segs)
        = if segs.length ≠ 8 then .error "expected 8 segments" else .ok segs) := by
  refine ⟨segmentsOf_ccParts, ?_, fun segs h2 hne hcf => segmentsOf_noElision h2 hne hcf⟩
  intro a b c ha hb hc
  have hmem : ':' ∈ a ++ ':' :: ':' :: (b ++ ':' :: ':' :: c) :=
    List.mem_append_right _ (by simp)
  have hsplit : splitDC (a ++ ':' :: ':' :: (b ++ ':' :: ':' :: c)) = a :: b :: splitDC c := by
    rw [splitDC_mid (hasAdjCC_colonFree ha) (colonFree_lastD ha)]
    rw [splitDC_mid (hasAdjCC_colonFree hb) (colonFree_lastD hb)]
  unfold segmentsOf
  rw [if_neg (by simp)]
  have hdc : jsIncludesDC (a ++ ':' :: ':' :: (b ++ ':' :: ':' :: c)) = true := by
    unfold jsIncludesDC
    rw [decide_eq_true_eq]
    exact ⟨a, b ++ ':' :: ':' :: c, by simp⟩
  rw [if_pos (by simp [hdc])]
  rw [hsplit, splitDC_noAdjCC (hasAdjCC_colonFree hc)]
  rw [if_pos (by simp)]

/-- C6 (witness): the three parts at concrete inputs — `::1` expands the
elision to seven zero groups, `1::2::3` fails on the second `::`, and
`1:2:3` without elision fails on the group count. -/
theorem claim_c6_elision_witness :
    segmentsOf ("::1".data)
      = .ok [['0'], ['0'], ['0'], ['0'], ['0'], ['0'], ['0'], ['1']] ∧
    segmentsOf ("1::2::3".data) = .error "more than one :: in address" ∧
    segmentsOf ("1:2:3".data) = .error "expected 8 segments" :=
  ⟨claim_c6_elision_structure.1 [] [['1']] (by simp) (by simp) (by decide) (by decide),
   claim_c6_elision_structure.2.1 ['1'] ['2'] ['3'] (by decide) (by decide) (by decide),
   claim_c6_elision_structure.2.2 [['1'], ['2'], ['3']] (by decide) (by decide) (by decide)⟩

/-- The web renderer agrees with the specification-side renderer
(`renderSpec`, modelled from the spec's words) on every vector of 8
fields: it compresses the longest run of consecutive zero groups of
length at least 2, leftmost on ties, and with no such run joins all 8
groups with no elision. -/
theorem renderFields_eq_renderSpec (fields : List Nat) (h8 : fields.length = 8) :
    renderFields fields = renderSpec fields := by
  simp only [renderFields, renderSpec]
  rw [findRun_eq_runModel, map_zeroTest_toHex]
  have hbs8 : (fields.map (fun f => decide (f = 0))).length = 8 := by simp [h8]
  have hcs := codeRun_eq_specBestRun hbs8
  cases hr : runModel (fields.map (fun f => decide (f = 0))) with
  | none =>
    have hsp : specBestRun (fields.map (fun f => decide (f = 0))) = none := by
      rw [← hcs]
      rw [codeRun, hr]
    rw [hsp]
  | some r =>
    cases r with
    | mk s l =>
      dsimp only
      by_cases hl : 2 ≤ l
      · have hsp : specBestRun (fields.map (fun f => decide (f = 0))) = some (s, l) := by
          rw [← hcs, codeRun, hr]
          dsimp only
          rw [if_pos hl]
        rw [hsp, if_pos hl]
      · have hsp : specBestRun (fields.map (fun f => decide (f = 0))) = none := by
          rw [← hcs, codeRun, hr]
          dsimp only
          rw [if_neg hl]
        rw [hsp, if_neg hl]

/-- C7 (counterexample): the claim says render — in both cited
implementations — compresses the longest zero run of length at least 2.
The node `normalizeIPv6` of the all-zero address performs no compression
and returns the fully padded 8-group form, which differs from the elided
form `::` that the spec renderer and the web renderer produce. -/
theorem claim_c7_counterexample :
    normalizeIPv6Node ("0:0:0:0:0:0:0:0".data)
      = .ok ("0000:0000:0000:0000:0000:0000:0000:0000".data) ∧
    renderSpec [0, 0, 0, 0, 0, 0, 0, 0] = "::".data ∧
    renderFields [0, 0, 0, 0, 0, 0, 0, 0] = "::".data ∧
    ("0000:0000:0000:0000:0000:0000:0000:0000".data : Str) ≠ "::".data :=
  ⟨rfl, rfl, rfl, by decide⟩

/-- C7 (amended): the web renderer agrees with the specification-side
renderer on every vector of 8 fields — the longest zero run of length at
least 2 is compressed, leftmost on ties, and all 8 groups are joined
plainly when no such run exists; the node `normalizeIPv6` never
compresses: every well-formed 8-group address is re-rendered as its 8
groups zero-padded to 4 digits and joined by the separator, with no
elision. -/
theorem claim_c7_render_amended :
    (∀ fields : List Nat, fields.length = 8 → renderFields fields = renderSpec fields) ∧
    (∀ segs : List Str, segs.length = 8 → (∀ s ∈ segs, s ≠ []) →
      (∀ s ∈ segs, ∀ c ∈ s, c ≠ ':') →
      normalizeIPv6Node (joinSep ':' segs)
        = .ok (joinSep ':' (segs.map (fun seg =>
            padStart4 (jsNumToString16 (jsParseInt16 seg)))))) :=
  ⟨renderFields_eq_renderSpec,
   fun _ h8 hne hcf => normalizeIPv6Node_noElision h8 hne hcf⟩

/-- C7 (witness): the web refinement at a concrete field vector with two
tied zero runs, and the node renderer at a concrete 8-group address with
no compression performed. -/
theorem claim_c7_render_witness :
    renderFields [1, 0, 0, 2, 0, 0, 0, 3] = renderSpec [1, 0, 0, 2, 0, 0, 0, 3] ∧
    normalizeIPv6Node ("00:0:0:0:0:0:0:0".data)
      = .ok ("0000:0000:0000:0000:0000:0000:0000:0000".data) :=
  ⟨claim_c7_render_amended.1 [1, 0, 0, 2, 0, 0, 0, 3] rfl,
   claim_c7_render_amended.2 [['0', '0'], ['0'], ['0'], ['0'], ['0'], ['0'], ['0'], ['0']]
      rfl (by decide) (by decide)⟩

theorem tokenize_noWS {p : Str} (h2 : 2 ≤ (tokenize p).length) :
    ∀ t ∈ tokenize p, NoWS t := by
  by_cases hex : ∃ c ∈ jsLower p, jsWS c = false
  · rw [tokenize_eq_wordsOf hex]
    intro t ht
    exact (wordsOf_tokens _ t ht).2
  · exfalso
    push_neg at hex
    simp only [Bool.not_eq_false] at hex
    have hnil : jsTrim (jsLower p) = [] := by
      unfold jsTrim trimL
      rw [List.dropWhile_eq_nil_iff.2 (by intro c hc; exact hex c hc)]
      rfl
    have htk : tokenize p = [[]] := by
      unfold tokenize
      rw [hnil]
      rfl
    rw [htk] at h2
    simp at h2

/-- C10: the decode result — address, checksum validity, expected and
actual checksum words, and invalid-word list — of a phrase with at least
9 tokens depends only on its first 9 tokens: a phrase whose token list
extends it by any further tokens decodes to the identical result. -/
theorem claim_c10_suffix_independence (wl : List Str) (p q : Str) (E : List Str)
    (h9 : 9 ≤ (tokenize p).length)
    (hext : tokenize q = tokenize p ++ E) :
    poetryToAddress wl true q = poetryToAddress wl true p := by
  have h9q : 8 ≤ (tokenize q).length := by
    rw [hext, List.length_append]
    omega
  have hW : ∀ t ∈ tokenize p, ' ' ∉ t := by
    intro t ht hsp
    have hws := tokenize_noWS (by omega) t ht ' ' hsp
    exact absurd hws (by decide)
  rw [@poetryToAddress_eq wl q true h9q, @poetryToAddress_eq wl p true (by omega)]
  rw [hext]
  have htake : (tokenize p ++ E).take 8 = (tokenize p).take 8 := by
    rw [List.take_append_eq_append_take]
    rw [Nat.sub_eq_zero_of_le (by omega), List.take_zero, List.append_nil]
  rw [htake]
  rw [checksumState_append wl h9 hW]

/-- C10 (witness): a 10-token phrase extending a 9-token phrase by one
more token decodes to the identical result. -/
theorem claim_c10_suffix_witness :
    poetryToAddress ["zero".data] true
        ("zero zero zero zero zero zero zero zero zero zero".data)
      = poetryToAddress ["zero".data] true
        ("zero zero zero zero zero zero zero zero zero".data) :=
  claim_c10_suffix_independence ["zero".data]
    ("zero zero zero zero zero zero zero zero zero".data)
    ("zero zero zero zero zero zero zero zero zero zero".data)
    ["zero".data] (by decide) rfl

/-- A concrete canonical vocabulary: 65,536 pairwise-distinct nonempty
lowercase whitespace-free tokens (the word at index `i` is `i + 1`
repetitions of `a`). -/
def vocabA : List Str := (List.range 65536).map (fun i => List.replicate (i + 1) 'a')

theorem vocabA_valid : ValidVocab vocabA := by
  have hinj : Function.Injective (fun i => List.replicate (i + 1) 'a') := by
    intro i j hij
    have hlen := congrArg List.length hij
    simp only [List.length_replicate] at hlen
    omega
  refine ⟨by simp [vocabA], by simpa [vocabA] using (List.nodup_range 65536).map hinj, ?_⟩
  intro t ht
  unfold vocabA at ht
  obtain ⟨i, _, rfl⟩ := List.mem_map.1 ht
  refine ⟨by simp, ?_, ?_⟩
  · intro c hc
    rw [List.eq_of_mem_replicate hc]
    decide
  · show jsLower (List.replicate (i + 1) 'a') = List.replicate (i + 1) 'a'
    unfold jsLower
    rw [List.map_replicate]
    rw [show lowerChar 'a' = 'a' from by decide]

/-- C2: over any vocabulary satisfying the spec's Vocabulary invariant
(65,536 unique nonempty lowercase whitespace-free tokens), encoding any
address whose expansion yields in-range fields and decoding the produced
phrase succeeds and yields an address denoting exactly the same eight
field values (round-trip up to textual normalization). -/
theorem claim_c2_roundtrip (wl : List Str) (hv : ValidVocab wl) (addr : Str)
    (fields : List Nat) (hok : expandIPv6 addr = .ok fields)
    (hrange : ∀ f ∈ fields, f < 65536) :
    ∃ phrase res, addressToPoetry wl true addr = .ok phrase ∧
      poetryToAddress wl true phrase = .ok res ∧
      expandIPv6 res.address = .ok fields := by
  obtain ⟨h65, hnd, htok⟩ := hv
  have h8 : fields.length = 8 := expandIPv6_length hok
  have hwlne : wl ≠ [] := by
    intro h
    rw [h] at h65
    simp at h65
  have hmemws : ∀ t ∈ fields.map (fun v => wordAt wl v) ++
      [wordAt wl (calculateChecksum fields)], t ∈ wl := by
    intro t ht
    rcases List.mem_append.1 ht with h | h
    · obtain ⟨v, _, rfl⟩ := List.mem_map.1 h
      exact wordAt_mem hwlne v
    · rw [List.mem_singleton.1 h]
      exact wordAt_mem hwlne _
  have htk : tokenize (joinSep ' ' (fields.map (fun v => wordAt wl v) ++
        [wordAt wl (calculateChecksum fields)]))
      = fields.map (fun v => wordAt wl v) ++ [wordAt wl (calculateChecksum fields)] :=
    tokenize_joinSep (by simp) (fun t ht => htok t (hmemws t ht))
  have hlen9 : (fields.map (fun v => wordAt wl v) ++
      [wordAt wl (calculateChecksum fields)]).length = 9 := by
    simp [h8]
  have htake : (fields.map (fun v => wordAt wl v) ++
        [wordAt wl (calculateChecksum fields)]).take 8
      = fields.map (fun v => wordAt wl v) := by
    have hml : (fields.map (fun v => wordAt wl v)).length = 8 := by simp [h8]
    rw [List.take_append_eq_append_take, hml, Nat.sub_self, List.take_zero, List.append_nil]
    exact List.take_of_length_le (le_of_eq hml)
  have hatp : addressToPoetry wl true addr
      = .ok (joinSep ' ' (fields.map (fun v => wordAt wl v) ++
          [wordAt wl (calculateChecksum fields)])) := by
    unfold addressToPoetry
    rw [hok]
    rfl
  have hp := @poetryToAddress_eq wl (joinSep ' ' (fields.map (fun v => wordAt wl v) ++
      [wordAt wl (calculateChecksum fields)])) true (by rw [htk, hlen9]; norm_num)
  rw [htk, htake, decodeWords_known hnd h65 fields 0 hrange] at hp
  dsimp only at hp
  refine ⟨_, _, hatp, hp, ?_⟩
  exact expandIPv6_renderFields h8

/-- C2 (witness): the round trip over the concrete canonical vocabulary
at the all-zeros address `::`. -/
theorem claim_c2_roundtrip_witness :
    ∃ phrase res, addressToPoetry vocabA true ("::".data) = .ok phrase ∧
      poetryToAddress vocabA true phrase = .ok res ∧
      expandIPv6 res.address = .ok [0, 0, 0, 0, 0, 0, 0, 0] :=
  claim_c2_roundtrip vocabA vocabA_valid ("::".data) [0, 0, 0, 0, 0, 0, 0, 0] rfl (by decide)
